import Mathlib

/-!
Verification of the KeraDB core against its specification.

This file gives a shallow embedding, in Lean 4, of the parts of the KeraDB
source that the checked claims are about:

* the JSON document model and the `Executor` insert / find-by-id pipeline
  (`src/execution/executor.rs`, `src/execution/index.rs`,
  `src/storage/serializer.rs`, `src/types.rs`);
* the buffer pool (`src/storage/buffer.rs`);
* the byte-level pager with CRC-32 page checksums (`src/storage/pager.rs`);
* the LEANN-style compressed vector store (`src/vector/compression.rs`);
* the HNSW graph and the filtered vector search
  (`src/vector/hnsw.rs`, `src/vector/search.rs`, `src/vector/types.rs`).

Modelling conventions, used throughout and noted again at each definition:

* Rust `f32` scalars are modelled by exact rationals (`Rat`).  The claims
  settled here either do not depend on rounding behaviour or are evaluated
  on small inputs where `f32` arithmetic is exact.
* Rust hash maps are modelled by association lists; operations mirror the
  `HashMap` / `DashMap` API (`insert` replaces an existing key).  Where the
  source reads "an arbitrary element" of a hash map (`keys().next()`), the
  model takes the head of the association list.
* Fallible Rust functions returning `Result` are modelled with `Except`;
  functions that mutate `self` before failing return the partial state.
* Loops whose termination is not structural are modelled with an explicit
  fuel argument that is large enough to never be exhausted on the states
  the source can reach; the bound is justified at each definition.
-/

namespace KeraDB

/-! ## Association lists standing in for Rust hash maps -/

/-- Lookup in an association list; models `HashMap::get`. -/
def alLookup {κ α : Type} [DecidableEq κ] (k : κ) : List (κ × α) → Option α
  | [] => none
  | (k2, v) :: xs => if k = k2 then some v else alLookup k xs

/-- Insert into an association list, replacing an existing binding;
models `HashMap::insert`. -/
def alInsert {κ α : Type} [DecidableEq κ] (k : κ) (v : α) : List (κ × α) → List (κ × α)
  | [] => [(k, v)]
  | (k2, v2) :: xs => if k = k2 then (k, v) :: xs else (k2, v2) :: alInsert k v xs

/-- Remove the binding of a key from an association list;
models `HashMap::remove` (at most one binding per key is ever present). -/
def alErase {κ α : Type} [DecidableEq κ] (k : κ) : List (κ × α) → List (κ × α)
  | [] => []
  | (k2, v2) :: xs => if k = k2 then xs else (k2, v2) :: alErase k xs

theorem alLookup_alInsert_self {κ α : Type} [DecidableEq κ] (k : κ) (v : α)
    (xs : List (κ × α)) : alLookup k (alInsert k v xs) = some v := by
  induction xs with
  | nil => simp [alInsert, alLookup]
  | cons hd tl ih =>
    obtain ⟨k2, v2⟩ := hd
    by_cases h : k = k2 <;> simp [alInsert, alLookup, h, ih]

theorem alLookup_alInsert_ne {κ α : Type} [DecidableEq κ] {k k2 : κ} (v : α)
    (xs : List (κ × α)) (h : k ≠ k2) :
    alLookup k (alInsert k2 v xs) = alLookup k xs := by
  induction xs with
  | nil => simp [alInsert, alLookup, h]
  | cons hd tl ih =>
    obtain ⟨k3, v3⟩ := hd
    by_cases h2 : k2 = k3
    · subst h2; simp [alInsert, alLookup, h]
    · by_cases h3 : k = k3 <;> simp [alInsert, alLookup, h2, h3, ih]

theorem length_alInsert_le {κ α : Type} [DecidableEq κ] (k : κ) (v : α)
    (xs : List (κ × α)) : (alInsert k v xs).length ≤ xs.length + 1 := by
  induction xs with
  | nil => simp [alInsert]
  | cons hd tl ih =>
    obtain ⟨k2, v2⟩ := hd
    by_cases h : k = k2
    · simp [alInsert, h]
    · simp only [alInsert, if_neg h, List.length_cons]
      omega

theorem length_alErase_le {κ α : Type} [DecidableEq κ] (k : κ) (xs : List (κ × α)) :
    (alErase k xs).length ≤ xs.length := by
  induction xs with
  | nil => simp [alErase]
  | cons hd tl ih =>
    obtain ⟨k2, v2⟩ := hd
    by_cases h : k = k2
    · simp only [alErase, if_pos h, List.length_cons]
      omega
    · simp only [alErase, if_neg h, List.length_cons]
      omega

/-! ## String ordering

`BTreeMap<String, _>` orders keys by byte-wise lexicographic comparison of
their UTF-8 encodings, which agrees with lexicographic comparison of the
code points.  The comparison is defined from scratch here (rather than by
Mathlib's `String` order) so that it evaluates by kernel reduction. -/

def charsLt : List Char → List Char → Bool
  | [], [] => false
  | [], _ :: _ => true
  | _ :: _, [] => false
  | a :: as, b :: bs =>
    if a.toNat < b.toNat then true
    else if b.toNat < a.toNat then false
    else charsLt as bs

def strLt (a b : String) : Bool := charsLt a.data b.data

theorem charsLt_irrefl : ∀ l : List Char, charsLt l l = false
  | [] => rfl
  | a :: as => by simp [charsLt, charsLt_irrefl as]

theorem strLt_irrefl (a : String) : strLt a a = false := charsLt_irrefl a.data

theorem charsLt_trans : ∀ a b c : List Char,
    charsLt a b = true → charsLt b c = true → charsLt a c = true
  | [], b, c, h1, h2 => by
    cases b with
    | nil => simp [charsLt] at h1
    | cons y bs =>
      cases c with
      | nil => simp [charsLt] at h2
      | cons z cs => simp [charsLt]
  | x :: as, b, c, h1, h2 => by
    cases b with
    | nil => simp [charsLt] at h1
    | cons y bs =>
      cases c with
      | nil => simp [charsLt] at h2
      | cons z cs =>
        simp only [charsLt] at h1 h2 ⊢
        rcases Nat.lt_trichotomy x.toNat y.toNat with hxy | hxy | hxy
        · rcases Nat.lt_trichotomy y.toNat z.toNat with hyz | hyz | hyz
          · simp [show x.toNat < z.toNat from lt_trans hxy hyz]
          · simp [show x.toNat < z.toNat from hyz ▸ hxy]
          · have h3 : ¬ y.toNat < z.toNat := by omega
            simp [h3, hyz] at h2
        · rcases Nat.lt_trichotomy y.toNat z.toNat with hyz | hyz | hyz
          · simp [show x.toNat < z.toNat from hxy ▸ hyz]
          · have h1' : charsLt as bs = true := by
              simp [hxy, Nat.lt_irrefl] at h1
              exact h1
            have h2' : charsLt bs cs = true := by
              simp [hyz, Nat.lt_irrefl] at h2
              exact h2
            have hxz : x.toNat = z.toNat := hxy.trans hyz
            simp [hxz, Nat.lt_irrefl, charsLt_trans as bs cs h1' h2']
          · have h3 : ¬ y.toNat < z.toNat := by omega
            simp [h3, hyz] at h2
        · have h3 : ¬ x.toNat < y.toNat := by omega
          simp [h3, hxy] at h1

theorem strLt_trans {a b c : String} (h1 : strLt a b = true) (h2 : strLt b c = true) :
    strLt a c = true := charsLt_trans a.data b.data c.data h1 h2

theorem charsLt_trichotomy : ∀ a b : List Char,
    charsLt a b = true ∨ a = b ∨ charsLt b a = true
  | [], [] => Or.inr (Or.inl rfl)
  | [], _ :: _ => Or.inl (by simp [charsLt])
  | _ :: _, [] => Or.inr (Or.inr (by simp [charsLt]))
  | a :: as, b :: bs => by
    rcases Nat.lt_trichotomy a.toNat b.toNat with h | h | h
    · exact Or.inl (by simp [charsLt, h])
    · have hab : a = b := Char.eq_of_val_eq (UInt32.toNat.inj h)
      rcases charsLt_trichotomy as bs with h2 | h2 | h2
      · exact Or.inl (by simp [charsLt, h, Nat.lt_irrefl, h2])
      · exact Or.inr (Or.inl (by rw [hab, h2]))
      · exact Or.inr (Or.inr (by simp [charsLt, h.symm, Nat.lt_irrefl, h2]))
    · exact Or.inr (Or.inr (by simp [charsLt, h]))

theorem strLt_trichotomy (a b : String) : strLt a b = true ∨ a = b ∨ strLt b a = true := by
  rcases charsLt_trichotomy a.data b.data with h | h | h
  · exact Or.inl h
  · refine Or.inr (Or.inl ?_)
    cases a; cases b
    exact congrArg String.mk h
  · exact Or.inr (Or.inr h)

theorem strLt_asymm {a b : String} (h : strLt a b = true) : strLt b a = false := by
  cases h2 : strLt b a with
  | false => rfl
  | true =>
    have h3 := strLt_trans h h2
    rw [strLt_irrefl] at h3
    cases h3

theorem ne_of_strLt {a b : String} (h : strLt a b = true) : a ≠ b := by
  intro heq
  subst heq
  rw [strLt_irrefl] at h
  cases h

/-! ## JSON values

Models `serde_json::Value`.  Numbers are modelled by exact rationals (see
the file header).  Objects are association lists of fields; `serde_json`'s
default map is a `BTreeMap`, i.e. a map whose canonical listing is sorted
by key with no duplicate keys, so object operations below keep the field
list sorted by key (`objInsert`). -/

inductive Json where
  | null : Json
  | bool (b : Bool) : Json
  | num (q : Rat) : Json
  | str (s : String) : Json
  | arr (elems : List Json) : Json
  | obj (fields : List (String × Json)) : Json

/-- Field lookup in a JSON object; models `serde_json::Map::get`. -/
def objLookup (k : String) : List (String × Json) → Option Json
  | [] => none
  | (k2, v) :: fs => if k = k2 then some v else objLookup k fs

/-- Sorted field insertion; models `serde_json::Map::insert` (a `BTreeMap`
keeps its entries sorted by key, replacing the value of an existing key). -/
def objInsert (k : String) (v : Json) : List (String × Json) → List (String × Json)
  | [] => [(k, v)]
  | (k2, v2) :: fs =>
    if strLt k k2 then (k, v) :: (k2, v2) :: fs
    else if k = k2 then (k, v) :: fs
    else (k2, v2) :: objInsert k v fs

/-- Field removal; models `serde_json::Map::remove`. -/
def objErase (k : String) : List (String × Json) → List (String × Json)
  | [] => []
  | (k2, v2) :: fs => if k = k2 then objErase k fs else (k2, v2) :: objErase k fs

/-- A field list in the canonical `BTreeMap` form: strictly sorted by key
(every `serde_json::Map` presents its fields this way). -/
def ObjCanonical (fs : List (String × Json)) : Prop :=
  List.Pairwise (fun a b => strLt a.1 b.1 = true) fs

/-! ### Lemmas about object-map operations -/

theorem objLookup_objInsert_self (k : String) (v : Json) (fs : List (String × Json)) :
    objLookup k (objInsert k v fs) = some v := by
  induction fs with
  | nil => simp [objInsert, objLookup]
  | cons hd tl ih =>
    obtain ⟨k2, v2⟩ := hd
    rcases strLt_trichotomy k k2 with h | h | h
    · simp [objInsert, objLookup, h]
    · subst h
      simp [objInsert, objLookup, strLt_irrefl]
    · simp [objInsert, objLookup, strLt_asymm h, (ne_of_strLt h).symm, ih]

theorem objLookup_objInsert_ne {k k2 : String} (v : Json) (fs : List (String × Json))
    (h : k ≠ k2) : objLookup k (objInsert k2 v fs) = objLookup k fs := by
  induction fs with
  | nil => simp [objInsert, objLookup, h]
  | cons hd tl ih =>
    obtain ⟨k3, v3⟩ := hd
    rcases strLt_trichotomy k2 k3 with h2 | h2 | h2
    · simp [objInsert, h2, objLookup, h]
    · subst h2
      simp [objInsert, objLookup, strLt_irrefl, h]
    · by_cases h3 : k = k3 <;>
        simp [objInsert, strLt_asymm h2, (ne_of_strLt h2).symm, objLookup, h3, ih]

theorem objLookup_objErase_self (k : String) (fs : List (String × Json)) :
    objLookup k (objErase k fs) = none := by
  induction fs with
  | nil => simp [objErase, objLookup]
  | cons hd tl ih =>
    obtain ⟨k2, v2⟩ := hd
    by_cases h : k = k2
    · subst h
      simp [objErase, ih]
    · simp [objErase, objLookup, h, ih]

theorem objLookup_objErase_ne {k k2 : String} (fs : List (String × Json))
    (h : k ≠ k2) : objLookup k (objErase k2 fs) = objLookup k fs := by
  induction fs with
  | nil => simp [objErase]
  | cons hd tl ih =>
    obtain ⟨k3, v3⟩ := hd
    by_cases h2 : k2 = k3
    · subst h2
      simp [objErase, objLookup, h, ih]
    · by_cases h3 : k = k3 <;> simp [objErase, objLookup, h2, h3, ih]

theorem mem_objInsert {p : String × Json} {k : String} {v : Json}
    {fs : List (String × Json)} (h : p ∈ objInsert k v fs) :
    p = (k, v) ∨ p ∈ fs := by
  induction fs with
  | nil =>
    simp only [objInsert, List.mem_singleton] at h
    exact Or.inl h
  | cons hd tl ih =>
    obtain ⟨k2, v2⟩ := hd
    rcases strLt_trichotomy k k2 with h2 | h2 | h2
    · simp only [objInsert, h2, if_true, List.mem_cons] at h
      rcases h with h | h
      · exact Or.inl h
      · exact Or.inr (List.mem_cons.mpr h)
    · subst h2
      simp only [objInsert, strLt_irrefl, Bool.false_eq_true, if_false, if_pos rfl,
        if_true, List.mem_cons] at h
      rcases h with h | h
      · exact Or.inl h
      · exact Or.inr (List.mem_cons_of_mem _ h)
    · simp only [objInsert, strLt_asymm h2, Bool.false_eq_true, if_false,
        if_neg (ne_of_strLt h2).symm, List.mem_cons] at h
      rcases h with h | h
      · exact Or.inr (by simp [h])
      · rcases ih h with h3 | h3
        · exact Or.inl h3
        · exact Or.inr (List.mem_cons_of_mem _ h3)

theorem objCanonical_objInsert (k : String) (v : Json) {fs : List (String × Json)}
    (hs : ObjCanonical fs) : ObjCanonical (objInsert k v fs) := by
  induction fs with
  | nil => simp [objInsert, ObjCanonical]
  | cons hd tl ih =>
    obtain ⟨k2, v2⟩ := hd
    obtain ⟨hhd, htl⟩ := List.pairwise_cons.mp hs
    rcases strLt_trichotomy k k2 with h | h | h
    · simp only [objInsert, h, if_true, ObjCanonical]
      refine List.pairwise_cons.mpr ⟨?_, hs⟩
      intro p hp
      rcases List.mem_cons.mp hp with h2 | h2
      · simp [h2, h]
      · exact strLt_trans h (hhd p h2)
    · subst h
      simp only [objInsert, strLt_irrefl, Bool.false_eq_true, if_false, if_pos rfl,
        if_true, ObjCanonical]
      exact List.pairwise_cons.mpr ⟨hhd, htl⟩
    · simp only [objInsert, strLt_asymm h, Bool.false_eq_true, if_false,
        if_neg (ne_of_strLt h).symm, ObjCanonical]
      refine List.pairwise_cons.mpr ⟨?_, ih htl⟩
      intro p hp
      rcases mem_objInsert hp with h2 | h2
      · simp [h2, h]
      · exact hhd p h2

theorem objErase_sublist (k : String) (fs : List (String × Json)) :
    (objErase k fs).Sublist fs := by
  induction fs with
  | nil => simp [objErase]
  | cons hd tl ih =>
    obtain ⟨k2, v2⟩ := hd
    by_cases h : k = k2
    · simp only [objErase, if_pos h]
      exact ih.trans (List.sublist_cons_self _ _)
    · simp only [objErase, if_neg h]
      exact ih.cons₂ _

theorem objCanonical_objErase (k : String) {fs : List (String × Json)}
    (hs : ObjCanonical fs) : ObjCanonical (objErase k fs) :=
  List.Pairwise.sublist (objErase_sublist k fs) hs

theorem objLookup_eq_none_of_forall_lt {k : String} {fs : List (String × Json)}
    (h : ∀ p ∈ fs, strLt k p.1 = true) : objLookup k fs = none := by
  induction fs with
  | nil => simp [objLookup]
  | cons hd tl ih =>
    obtain ⟨k2, v2⟩ := hd
    have hk : strLt k k2 = true := h (k2, v2) (by simp)
    simp only [objLookup, if_neg (ne_of_strLt hk)]
    exact ih fun p hp => h p (List.mem_cons_of_mem _ hp)

/-- Canonical field lists are determined by their lookups. -/
theorem objExt {fs gs : List (String × Json)} (hf : ObjCanonical fs)
    (hg : ObjCanonical gs) (h : ∀ k, objLookup k fs = objLookup k gs) : fs = gs := by
  induction fs generalizing gs with
  | nil =>
    cases gs with
    | nil => rfl
    | cons hd tl =>
      obtain ⟨k2, v2⟩ := hd
      have h2 := h k2
      simp [objLookup] at h2
  | cons hd tl ih =>
    obtain ⟨k, v⟩ := hd
    cases gs with
    | nil =>
      have h2 := h k
      simp [objLookup] at h2
    | cons hd2 tl2 =>
      obtain ⟨k2, v2⟩ := hd2
      obtain ⟨hfhd, hftl⟩ := List.pairwise_cons.mp hf
      obtain ⟨hghd, hgtl⟩ := List.pairwise_cons.mp hg
      have hkk2 : k = k2 := by
        by_contra hne
        rcases strLt_trichotomy k k2 with hlt | heq | hgt
        · have h1 := h k
          have hnone : objLookup k tl2 = none :=
            objLookup_eq_none_of_forall_lt fun p hp => strLt_trans hlt (hghd p hp)
          simp [objLookup, hne, hnone] at h1
        · exact hne heq
        · have h1 := h k2
          have hnone : objLookup k2 tl = none :=
            objLookup_eq_none_of_forall_lt fun p hp => strLt_trans hgt (hfhd p hp)
          simp [objLookup, Ne.symm hne, hnone] at h1
      subst hkk2
      have hv : v = v2 := by
        have h1 := h k
        simpa [objLookup] using h1
      subst hv
      have htl : tl = tl2 := by
        apply ih hftl hgtl
        intro k3
        by_cases h3 : k3 = k
        · subst h3
          rw [objLookup_eq_none_of_forall_lt fun p hp => hfhd p hp,
            objLookup_eq_none_of_forall_lt fun p hp => hghd p hp]
        · have h1 := h k3
          simpa [objLookup, h3] using h1
      rw [htl]

/-! ## Rendered JSON text, for the page-capacity check only

`Serializer::serialize` renders the document to JSON text
(`serde_json::to_string`) and wraps it with `bincode` (an 8-byte
little-endian length prefix before the UTF-8 bytes).  The executor uses the
byte length of that encoding only to reject documents that do not fit in a
page; the model therefore renders JSON text solely to measure it.
Control-character escaping beyond the common escapes and the exact decimal
form of non-integer numbers are simplified (they only shift the byte count,
which every theorem below takes as a hypothesis or evaluates concretely). -/

def escapeChar (c : Char) : String :=
  if c = '"' then "\\\""
  else if c = '\\' then "\\\\"
  else if c = '\n' then "\\n"
  else if c = '\r' then "\\r"
  else if c = '\t' then "\\t"
  else if c.toNat < 32 then "\\u0000"
  else String.singleton c

def renderString (s : String) : String :=
  "\"" ++ String.join (s.toList.map escapeChar) ++ "\""

def renderNum (q : Rat) : String :=
  if q.den = 1 then toString q.num else toString q

mutual
def Json.render : Json → String
  | .null => "null"
  | .bool true => "true"
  | .bool false => "false"
  | .num q => renderNum q
  | .str s => renderString s
  | .arr xs => "[" ++ Json.renderElems xs ++ "]"
  | .obj fs => "\x7b" ++ Json.renderFields fs ++ "\x7d"
def Json.renderElems : List Json → String
  | [] => ""
  | [x] => Json.render x
  | x :: y :: xs => Json.render x ++ "," ++ Json.renderElems (y :: xs)
def Json.renderFields : List (String × Json) → String
  | [] => ""
  | [(k, v)] => renderString k ++ ":" ++ Json.render v
  | (k, v) :: f :: fs =>
    renderString k ++ ":" ++ Json.render v ++ "," ++ Json.renderFields (f :: fs)
end

/-! ## Documents and the serializer (`src/types.rs`, `src/storage/serializer.rs`) -/

/-- A document: `Document { #[serde(rename = "_id")] id, #[serde(flatten)] data }`. -/
structure Document where
  id : String
  data : Json

/-- JSON value produced by serialising a document: the `_id` field followed by
the flattened `data` fields (serde emits named struct fields before the
flattened map). -/
def Document.renderedJson (d : Document) : Json :=
  match d.data with
  | .obj fs => .obj (("_id", .str d.id) :: fs)
  | other => other

/-- Byte length of `Serializer::serialize(doc)`: an 8-byte `bincode` length
prefix followed by the UTF-8 JSON text. -/
def docSize (d : Document) : Nat :=
  8 + (Json.render d.renderedJson).utf8ByteSize

/-- Document::to_value: the body with `_id` put back
(`map.insert("_id", id)` on a clone of `data`). -/
def Document.toValue (d : Document) : Json :=
  match d.data with
  | .obj fs => .obj (objInsert "_id" (.str d.id) fs)
  | other => other

/-! ## Errors (`src/error.rs`), restricted to the variants the model reaches -/

inductive KeraDBError where
  | invalidDocument (msg : String)
  | documentNotFound (id : String)
  | duplicateKey (id : String)
  | storageError (msg : String)
  | checksumMismatch
  | invalidFormat (msg : String)
  | notFound (msg : String)
deriving Repr, DecidableEq

/-! ## Page kinds (`src/types.rs`) -/

inductive PageType where
  | meta | data | index | free | vectorData | vectorIndex
deriving Repr, DecidableEq

/-! ## Executor-level pages

At the executor level a `Data` page's payload is the `[len: u32 LE][bytes]`
framing of `Serializer::serialize(doc)`.  `Serializer` is
`bincode(serde_json::to_string(doc))` and round-trips every document
(serde parses back the `_id` field and flattens the rest into `data`), so
the model stores the decoded `Document` itself: `some doc` is a payload
framing `doc`, `none` is a zeroed payload (`len = 0`), which
`extract_document_from_page` rejects. -/

structure DocPage where
  pageNum : Nat
  pageType : PageType
  payload : Option Document

/-! ## Buffer pool (`src/storage/buffer.rs`) -/

structure BufferPool where
  cache : List (Nat × DocPage)
  maxSize : Nat

def BufferPool.new (maxSize : Nat) : BufferPool := ⟨[], maxSize⟩

/-- BufferPool::get returns a clone of the cached page. -/
def BufferPool.get (p : BufferPool) (pageNum : Nat) : Option DocPage :=
  alLookup pageNum p.cache

/-- BufferPool::put: when the cache is full, one arbitrary entry
(`cache.keys().next()`, modelled as the head of the list) is removed before
inserting. -/
def BufferPool.put (p : BufferPool) (page : DocPage) : BufferPool :=
  let cache :=
    if p.maxSize ≤ p.cache.length then
      match p.cache with
      | [] => ([] : List (Nat × DocPage))
      | (k, _) :: _ => alErase k p.cache
    else p.cache
  { p with cache := alInsert page.pageNum page cache }

def BufferPool.removePage (p : BufferPool) (pageNum : Nat) : BufferPool :=
  { p with cache := alErase pageNum p.cache }

def BufferPool.size (p : BufferPool) : Nat := p.cache.length

/-! ## Primary index (`src/execution/index.rs`) -/

structure IndexEntry where
  docId : String
  pageNum : Nat
  offset : Nat
deriving Repr, DecidableEq

/-- Collection name to per-collection map of document id to index entry;
models the `DashMap<String, HashMap<DocumentId, IndexEntry>>`. -/
abbrev IndexMap : Type := List (String × List (String × IndexEntry))

/-- Index::insert: create the collection bucket if needed, fail on a
duplicate document id, otherwise record the entry. -/
def Index.insert (idx : IndexMap) (collection docId : String) (pageNum offset : Nat) :
    Except KeraDBError IndexMap :=
  let bucket := (alLookup collection idx).getD []
  if (alLookup docId bucket).isSome then
    .error (.duplicateKey docId)
  else
    .ok (alInsert collection (alInsert docId ⟨docId, pageNum, offset⟩ bucket) idx)

/-- Index::find. -/
def Index.find (idx : IndexMap) (collection docId : String) : Option IndexEntry :=
  (alLookup collection idx).bind (alLookup docId)

/-! ## Executor state and operations (`src/execution/executor.rs`)

The executor owns the pager (its page list and page size), the buffer pool
and the index.  The per-collection metadata counters
(`update_collection_metadata`) track statistics only and are not modelled.
Checksums are modelled at the byte level in the pager section below; the
executor-level model works on intact in-memory pages. -/

structure ExecState where
  pageSize : Nat
  pages : List DocPage
  bufferPool : BufferPool
  index : IndexMap

/-- Second half of `Executor::insert`, after the document has been formed:
allocate a `Data` page (`Pager::allocate_page` appends a zeroed page),
write the serialized document into it unless it exceeds the page payload
(`page_size - 5` bytes), then register the id in the index; a duplicate id
fails only after the page write, and on success the page is cached. -/
def Executor.insertDoc (st : ExecState) (collection : String) (doc : Document) :
    Except KeraDBError String × ExecState :=
  let pageNum := st.pages.length
  if st.pageSize - 5 < docSize doc + 4 then
    (.error (.storageError "Document too large for page"),
      { st with pages := st.pages ++ [⟨pageNum, .data, none⟩] })
  else
    let page : DocPage := ⟨pageNum, .data, some doc⟩
    let st1 : ExecState := { st with pages := st.pages ++ [page] }
    match Index.insert st1.index collection doc.id pageNum 0 with
    | .error e => (.error e, st1)
    | .ok idx =>
      (.ok doc.id, { st1 with index := idx, bufferPool := st1.bufferPool.put page })

/-- Executor::insert.  `freshId` stands for the version-4 UUID that
`Document::new` would generate when the body carries no `_id`. -/
def Executor.insert (st : ExecState) (collection : String) (data : Json)
    (freshId : String) : Except KeraDBError String × ExecState :=
  match data with
  | .obj fields0 =>
    let fields := objInsert "_collection" (.str collection) fields0
    match objLookup "_id" fields with
    | some (.str s) =>
      Executor.insertDoc st collection ⟨s, .obj (objErase "_id" fields)⟩
    | some _ => (.error (.invalidDocument "_id must be a string"), st)
    | none => Executor.insertDoc st collection ⟨freshId, .obj fields⟩
  | _ => (.error (.invalidDocument "Document must be a JSON object"), st)

/-- Executor::extract_document_from_page: decode the length prefix and
deserialize; a zeroed payload fails with "Invalid document length". -/
def Executor.extractDocumentFromPage (page : DocPage) : Except KeraDBError Document :=
  match page.payload with
  | some doc => .ok doc
  | none => .error (.storageError "Invalid document length")

/-- Executor::find_by_id: index lookup, then the cache, then a pager read
(which caches the page read from disk). -/
def Executor.findById (st : ExecState) (collection docId : String) :
    Except KeraDBError Document × ExecState :=
  match Index.find st.index collection docId with
  | none => (.error (.documentNotFound docId), st)
  | some entry =>
    match st.bufferPool.get entry.pageNum with
    | some page => (Executor.extractDocumentFromPage page, st)
    | none =>
      match st.pages[entry.pageNum]? with
      | none => (.error (.storageError "Page does not exist"), st)
      | some page =>
        (Executor.extractDocumentFromPage page,
          { st with bufferPool := st.bufferPool.put page })

/-! ## Claim C1: insert / find-by-id round trip -/

/-- Body of a found document as the round-trip claim restores it: when the
original body carried an `_id`, the document's `to_value` (which puts `_id`
back); otherwise the bare persisted body; in both cases with the injected
`_collection` field removed. -/
def restoreBody (hadId : Bool) (d : Document) : Json :=
  match (if hadId then d.toValue else d.data) with
  | .obj fs => .obj (objErase "_collection" fs)
  | other => other

/-- Claim C1: for every valid JSON object body `B` (canonical field list, no
reserved `_collection` field, `_id` absent or a string) and fresh collection
`C`, after `id = insert(C, B)` succeeds, `find_by_id(C, id)` returns a
document whose body, restored without the injected `_collection` field,
equals `B` — including the case where `B` carries a string `_id`. -/
theorem c1_insert_find_roundtrip
    (st : ExecState) (C freshId : String) (fields : List (String × Json))
    (hsorted : ObjCanonical fields)
    (hfresh : alLookup C st.index = none)
    (hnocol : objLookup "_collection" fields = none)
    (hid : ∀ v, objLookup "_id" fields = some v → ∃ s, v = Json.str s)
    (id : String) (st' : ExecState)
    (hins : Executor.insert st C (Json.obj fields) freshId = (Except.ok id, st')) :
    ∃ doc, (Executor.findById st' C id).1 = Except.ok doc ∧
      restoreBody (objLookup "_id" fields).isSome doc = Json.obj fields := by
  have hidcol : ("_id" : String) ≠ "_collection" := by decide
  have hlook2 : objLookup "_id" (objInsert "_collection" (Json.str C) fields)
      = objLookup "_id" fields := objLookup_objInsert_ne _ _ hidcol
  cases hcase : objLookup "_id" fields with
  | none =>
    have hdocdef :
        Executor.insert st C (Json.obj fields) freshId
          = Executor.insertDoc st C ⟨freshId, .obj (objInsert "_collection" (.str C) fields)⟩ := by
      simp only [Executor.insert, hlook2, hcase]
    rw [hdocdef] at hins
    set doc : Document := ⟨freshId, .obj (objInsert "_collection" (.str C) fields)⟩ with hdoc
    simp only [Executor.insertDoc] at hins
    by_cases hbig : st.pageSize - 5 < docSize doc + 4
    · rw [if_pos hbig] at hins
      simp [Prod.ext_iff] at hins
    · rw [if_neg hbig] at hins
      have hidx : Index.insert st.index C doc.id st.pages.length 0
          = .ok (alInsert C (alInsert doc.id ⟨doc.id, st.pages.length, 0⟩ []) st.index) := by
        simp [Index.insert, hfresh, alLookup]
      rw [hidx] at hins
      rw [Prod.mk.injEq] at hins
      obtain ⟨h1, h2⟩ := hins
      have hideq : doc.id = id := by
        injection h1
      subst hideq
      subst h2
      refine ⟨doc, ?_, ?_⟩
      · have hfind : Index.find
            (alInsert C (alInsert doc.id ⟨doc.id, st.pages.length, 0⟩ []) st.index) C doc.id
            = some ⟨doc.id, st.pages.length, 0⟩ := by
          simp [Index.find, alLookup_alInsert_self]
        have hget : (st.bufferPool.put ⟨st.pages.length, .data, some doc⟩).get
            st.pages.length = some ⟨st.pages.length, .data, some doc⟩ := by
          simp [BufferPool.put, BufferPool.get, alLookup_alInsert_self]
        simp [Executor.findById, hfind, hget, Executor.extractDocumentFromPage]
      · simp only [hcase, Option.isSome_none, restoreBody, hdoc, Bool.false_eq_true,
          if_false]
        refine congrArg Json.obj (objExt ?_ hsorted ?_)
        · exact objCanonical_objErase _ (objCanonical_objInsert _ _ hsorted)
        · intro k
          by_cases hk : k = "_collection"
          · subst hk
            rw [objLookup_objErase_self, hnocol]
          · rw [objLookup_objErase_ne _ hk, objLookup_objInsert_ne _ _ hk]
  | some v =>
    obtain ⟨s, hv⟩ := hid v hcase
    subst hv
    have hdocdef :
        Executor.insert st C (Json.obj fields) freshId
          = Executor.insertDoc st C
              ⟨s, .obj (objErase "_id" (objInsert "_collection" (.str C) fields))⟩ := by
      simp only [Executor.insert, hlook2, hcase]
    rw [hdocdef] at hins
    set doc : Document :=
      ⟨s, .obj (objErase "_id" (objInsert "_collection" (.str C) fields))⟩ with hdoc
    simp only [Executor.insertDoc] at hins
    by_cases hbig : st.pageSize - 5 < docSize doc + 4
    · rw [if_pos hbig] at hins
      simp [Prod.ext_iff] at hins
    · rw [if_neg hbig] at hins
      have hidx : Index.insert st.index C doc.id st.pages.length 0
          = .ok (alInsert C (alInsert doc.id ⟨doc.id, st.pages.length, 0⟩ []) st.index) := by
        simp [Index.insert, hfresh, alLookup]
      rw [hidx] at hins
      rw [Prod.mk.injEq] at hins
      obtain ⟨h1, h2⟩ := hins
      have hideq : doc.id = id := by injection h1
      subst hideq
      subst h2
      refine ⟨doc, ?_, ?_⟩
      · have hfind : Index.find
            (alInsert C (alInsert doc.id ⟨doc.id, st.pages.length, 0⟩ []) st.index) C doc.id
            = some ⟨doc.id, st.pages.length, 0⟩ := by
          simp [Index.find, alLookup_alInsert_self]
        have hget : (st.bufferPool.put ⟨st.pages.length, .data, some doc⟩).get
            st.pages.length = some ⟨st.pages.length, .data, some doc⟩ := by
          simp [BufferPool.put, BufferPool.get, alLookup_alInsert_self]
        simp [Executor.findById, hfind, hget, Executor.extractDocumentFromPage]
      · simp only [hcase, Option.isSome_some, restoreBody, hdoc, Document.toValue,
          if_true]
        refine congrArg Json.obj (objExt ?_ hsorted ?_)
        · exact objCanonical_objErase _ (objCanonical_objInsert _ _
            (objCanonical_objErase _ (objCanonical_objInsert _ _ hsorted)))
        · intro k
          by_cases hk : k = "_collection"
          · subst hk
            rw [objLookup_objErase_self, hnocol]
          · rw [objLookup_objErase_ne _ hk]
            by_cases hk2 : k = "_id"
            · subst hk2
              rw [objLookup_objInsert_self, hcase]
            · rw [objLookup_objInsert_ne _ _ hk2, objLookup_objErase_ne _ hk2,
                objLookup_objInsert_ne _ _ hk]

/-- Witness inputs for C1: a fresh database and the body of the spec's
scenario 1. -/
def c1Fields : List (String × Json) := [("age", .num 30), ("name", .str "Alice")]

def c1St0 : ExecState := ⟨4096, [], BufferPool.new 10, []⟩

theorem c1_insert_find_roundtrip_witness :
    (Executor.insert c1St0 "users" (Json.obj c1Fields) "u1").1 = Except.ok "u1" ∧
    ∃ doc, (Executor.findById (Executor.insert c1St0 "users" (Json.obj c1Fields) "u1").2
        "users" "u1").1 = Except.ok doc ∧
      restoreBody (objLookup "_id" c1Fields).isSome doc = Json.obj c1Fields := by
  refine ⟨by rfl, ?_⟩
  exact c1_insert_find_roundtrip c1St0 "users" "u1" c1Fields
    (by unfold ObjCanonical; decide)
    (by rfl) (by rfl)
    (by intro v hv; simp [c1Fields, objLookup] at hv)
    "u1" (Executor.insert c1St0 "users" (Json.obj c1Fields) "u1").2
    (by rfl)

/-! ## Claim C2: duplicate-id insert fails after the page write -/

/-- Claim C2: if id `x` is already registered in collection `C` (at a page
that exists), inserting a body that carries `"_id" = x` (and fits in a
page) fails with the duplicate-key error, the failure state contains a
freshly written `Data` page holding the new document, and `find_by_id(C, x)`
afterwards returns exactly what it returned before the failed insert. -/
theorem c2_duplicate_insert
    (st : ExecState) (C x freshId : String) (fields : List (String × Json))
    (entry : IndexEntry)
    (hreg : Index.find st.index C x = some entry)
    (hpage : entry.pageNum < st.pages.length)
    (hidfield : objLookup "_id" (objInsert "_collection" (.str C) fields)
      = some (.str x))
    (hfits : ¬ st.pageSize - 5 <
      docSize ⟨x, .obj (objErase "_id" (objInsert "_collection" (.str C) fields))⟩ + 4) :
    Executor.insert st C (Json.obj fields) freshId =
      (Except.error (.duplicateKey x),
        { st with pages := st.pages ++
            [⟨st.pages.length, .data,
              some ⟨x, .obj (objErase "_id" (objInsert "_collection" (.str C) fields))⟩⟩] }) ∧
    (Executor.findById
        { st with pages := st.pages ++
            [⟨st.pages.length, .data,
              some ⟨x, .obj (objErase "_id" (objInsert "_collection" (.str C) fields))⟩⟩] }
        C x).1
      = (Executor.findById st C x).1 := by
  have hbucket : ∃ bucket, alLookup C st.index = some bucket ∧ alLookup x bucket = some entry := by
    unfold Index.find at hreg
    cases hb : alLookup C st.index with
    | none => simp [hb] at hreg
    | some bucket => exact ⟨bucket, rfl, by simpa [hb] using hreg⟩
  obtain ⟨bucket, hb, hx⟩ := hbucket
  have hdup : Index.insert st.index C x st.pages.length 0 = .error (.duplicateKey x) := by
    simp [Index.insert, hb, hx]
  constructor
  · simp only [Executor.insert, hidfield, Executor.insertDoc, hfits, if_false, hdup]
  · have hfind : Index.find
        ({ st with pages := st.pages ++
            [⟨st.pages.length, .data,
              some ⟨x, .obj (objErase "_id" (objInsert "_collection" (.str C) fields))⟩⟩] }
          : ExecState).index C x = some entry := hreg
    simp only [Executor.findById, hreg, hfind]
    cases hc : st.bufferPool.get entry.pageNum with
    | some page => rfl
    | none =>
      have hsame : (st.pages ++
          [⟨st.pages.length, .data,
            some ⟨x, .obj (objErase "_id" (objInsert "_collection" (.str C) fields))⟩⟩])[entry.pageNum]?
          = st.pages[entry.pageNum]? := List.getElem?_append_left hpage
      simp only [hc, hsame]
      cases st.pages[entry.pageNum]? with
      | none => rfl
      | some page => rfl

/-- Witness state for C2: one successful insert of `{"_id": "x", "v": 1}`. -/
def c2St1 : ExecState :=
  (Executor.insert c1St0 "c" (Json.obj [("_id", .str "x"), ("v", .num 1)]) "u1").2

theorem c2_duplicate_insert_witness :
    Index.find c2St1.index "c" "x" = some ⟨"x", 0, 0⟩ ∧
    (Executor.insert c2St1 "c" (Json.obj [("_id", Json.str "x"), ("v", Json.num 2)]) "u2").1
      = Except.error (.duplicateKey "x") ∧
    (Executor.findById
        (Executor.insert c2St1 "c" (Json.obj [("_id", Json.str "x"), ("v", Json.num 2)]) "u2").2
        "c" "x").1
      = (Executor.findById c2St1 "c" "x").1 := by
  have h := c2_duplicate_insert c2St1 "c" "x" "u2"
    [("_id", Json.str "x"), ("v", Json.num 2)] ⟨"x", 0, 0⟩
    (by rfl) (by decide) (by rfl) (by decide)
  refine ⟨by rfl, ?_, ?_⟩
  · rw [h.1]
  · rw [h.1]
    exact h.2

/-! ## Claim C10: buffer pool capacity bound -/

inductive BufferOp where
  | putOp (page : DocPage)
  | getOp (pageNum : Nat)
  | removeOp (pageNum : Nat)

/-- One buffer-pool API call; `get` does not change the cache. -/
def BufferPool.applyOp (p : BufferPool) : BufferOp → BufferPool
  | .putOp page => p.put page
  | .getOp _ => p
  | .removeOp n => p.removePage n

def BufferPool.runOps (p : BufferPool) (ops : List BufferOp) : BufferPool :=
  ops.foldl BufferPool.applyOp p

theorem BufferPool.size_put_le (p : BufferPool) (page : DocPage) (hc : 1 ≤ p.maxSize)
    (hp : p.size ≤ p.maxSize) : (p.put page).size ≤ p.maxSize := by
  obtain ⟨cache, c⟩ := p
  simp only [BufferPool.put, BufferPool.size] at *
  cases cache with
  | nil =>
    by_cases hf : c ≤ ([] : List (Nat × DocPage)).length
    · simp only [if_pos hf]
      simp at hf
      omega
    · simp only [if_neg hf]
      simp [alInsert]
      omega
  | cons hd tl =>
    obtain ⟨k, v⟩ := hd
    by_cases hf : c ≤ ((k, v) :: tl).length
    · simp only [if_pos hf]
      have h1 : alErase k ((k, v) :: tl) = tl := by simp [alErase]
      rw [h1]
      have h2 := length_alInsert_le page.pageNum page tl
      simp only [List.length_cons] at hp
      omega
    · simp only [if_neg hf]
      have h2 := length_alInsert_le page.pageNum page ((k, v) :: tl)
      simp only [List.length_cons] at *
      omega

theorem BufferPool.size_applyOp_le (p : BufferPool) (op : BufferOp) (hc : 1 ≤ p.maxSize)
    (hp : p.size ≤ p.maxSize) : (p.applyOp op).size ≤ p.maxSize := by
  cases op with
  | putOp page => exact p.size_put_le page hc hp
  | getOp n => exact hp
  | removeOp n =>
    simp only [BufferPool.applyOp, BufferPool.removePage, BufferPool.size] at *
    have := length_alErase_le n p.cache
    omega

theorem BufferPool.maxSize_applyOp (p : BufferPool) (op : BufferOp) :
    (p.applyOp op).maxSize = p.maxSize := by
  cases op with
  | putOp page => rfl
  | getOp n => rfl
  | removeOp n => rfl

/-- Claim C10: with capacity `c ≥ 1`, after any sequence of `put` / `get` /
`remove` operations the buffer pool holds at most `c` pages (a full pool
evicts an entry before inserting). -/
theorem c10_buffer_pool_capacity (c : Nat) (hc : 1 ≤ c) (ops : List BufferOp) :
    ((BufferPool.new c).runOps ops).size ≤ c := by
  suffices h : ∀ p : BufferPool, p.maxSize = c → p.size ≤ c → (p.runOps ops).size ≤ c by
    exact h (BufferPool.new c) rfl (by simp [BufferPool.new, BufferPool.size])
  induction ops with
  | nil => intro p hm hp; exact hp
  | cons op rest ih =>
    intro p hm hp
    have h1 : (p.applyOp op).maxSize = c := by rw [BufferPool.maxSize_applyOp, hm]
    have h2 : (p.applyOp op).size ≤ c := by
      have := p.size_applyOp_le op (hm ▸ hc) (hm ▸ hp)
      omega
    exact ih (p.applyOp op) h1 h2

theorem c10_buffer_pool_capacity_witness :
    1 ≤ 2 ∧
    ((BufferPool.new 2).runOps
      [.putOp ⟨0, .data, none⟩, .putOp ⟨1, .data, none⟩, .putOp ⟨2, .data, none⟩,
        .getOp 1, .removeOp 0]).size ≤ 2 :=
  ⟨by decide, c10_buffer_pool_capacity 2 (by decide)
    [.putOp ⟨0, .data, none⟩, .putOp ⟨1, .data, none⟩, .putOp ⟨2, .data, none⟩,
      .getOp 1, .removeOp 0]⟩

/-! ## Byte-level pager (`src/storage/pager.rs`)

The pager reads fixed-size pages from the file: 1 kind byte, a 4-byte
little-endian CRC-32 checksum, and `page_size - 5` payload bytes.  Bytes
are modelled as `Nat` values below 256; the checksum as a `Nat` below
`2^32`.  `crc32` below is the standard reflected CRC-32 with polynomial
`0xEDB88320`, the function computed by `crc32fast::hash`. -/

def crc32Round (crc : Nat) : Nat :=
  if crc % 2 = 1 then (crc / 2) ^^^ 0xEDB88320 else crc / 2

def crc32Byte (crc b : Nat) : Nat := crc32Round^[8] (crc ^^^ b)

/-- CRC-32 (IEEE, reflected) of a byte sequence; models `crc32fast::hash`. -/
def crc32 (bytes : List Nat) : Nat :=
  (bytes.foldl crc32Byte 0xFFFFFFFF) ^^^ 0xFFFFFFFF

/-- PageType::try_from on the stored kind byte. -/
def PageType.tryFrom (b : Nat) : Except KeraDBError PageType :=
  match b with
  | 0 => .ok .meta
  | 1 => .ok .data
  | 2 => .ok .index
  | 3 => .ok .free
  | 4 => .ok .vectorData
  | 5 => .ok .vectorIndex
  | _ => .error (.invalidFormat "Invalid page type")

/-- In-memory page as `Pager::read_page` constructs it (`Page` in
`pager.rs`): page number, kind, stored checksum and payload bytes. -/
structure BytePage where
  pageNum : Nat
  pageType : PageType
  checksum : Nat
  data : List Nat

/-- Page::verify_checksum: `crc32fast::hash(&self.data) == self.checksum`. -/
def BytePage.verifyChecksum (p : BytePage) : Bool :=
  crc32 p.data == p.checksum

/-- On-disk bytes of one page slot: the kind byte, the stored 32-bit
checksum, and the payload bytes. -/
structure DiskPage where
  kindByte : Nat
  checksum : Nat
  bytes : List Nat

/-- Pager state: the header's page count and the page slots present in the
file.  `disk[n]?` is the `page_size`-byte slot at offset
`64 + n * page_size`; a missing slot is a short read (an I/O error). -/
structure Pager where
  pageSize : Nat
  pageCount : Nat
  disk : List DiskPage

/-- Pager::read_page: reject `n ≥ page_count`, read the kind byte (failing
on an invalid kind), the checksum and the payload, then fail with
`ChecksumMismatch` unless the stored checksum equals the payload's CRC-32. -/
def Pager.readPage (pgr : Pager) (n : Nat) : Except KeraDBError BytePage :=
  if pgr.pageCount ≤ n then .error (.storageError "Page does not exist")
  else
    match pgr.disk[n]? with
    | none => .error (.storageError "failed to fill whole buffer")
    | some dp =>
      match PageType.tryFrom dp.kindByte with
      | .error e => .error e
      | .ok pt =>
        let page : BytePage := ⟨n, pt, dp.checksum, dp.bytes⟩
        if page.verifyChecksum then .ok page else .error .checksumMismatch

/-- Claim C3: `read_page(n)` fails for `n ≥ page_count`; it fails with the
integrity (checksum-mismatch) error whenever the page is present with a
valid kind byte but its stored checksum differs from the CRC-32 of its
payload bytes; and every successfully returned page verifies its checksum. -/
theorem c3_read_page_checksum (pgr : Pager) (n : Nat) :
    (pgr.pageCount ≤ n → pgr.readPage n = .error (.storageError "Page does not exist")) ∧
    (∀ dp pt, n < pgr.pageCount → pgr.disk[n]? = some dp →
      PageType.tryFrom dp.kindByte = .ok pt →
      crc32 dp.bytes ≠ dp.checksum → pgr.readPage n = .error .checksumMismatch) ∧
    (∀ page, pgr.readPage n = .ok page → page.verifyChecksum = true) := by
  refine ⟨?_, ?_, ?_⟩
  · intro h
    simp [Pager.readPage, h]
  · intro dp pt hlt hdp hpt hne
    have hno : ¬ pgr.pageCount ≤ n := by omega
    have hver : (⟨n, pt, dp.checksum, dp.bytes⟩ : BytePage).verifyChecksum = false := by
      simp [BytePage.verifyChecksum, hne]
    simp [Pager.readPage, hno, hdp, hpt, hver]
  · intro page hok
    by_cases h : pgr.pageCount ≤ n
    · simp [Pager.readPage, h] at hok
    · cases hdp : pgr.disk[n]? with
      | none => simp [Pager.readPage, h, hdp] at hok
      | some dp =>
        cases hpt : PageType.tryFrom dp.kindByte with
        | error e => simp [Pager.readPage, h, hdp, hpt] at hok
        | ok pt =>
          by_cases hver : (⟨n, pt, dp.checksum, dp.bytes⟩ : BytePage).verifyChecksum = true
          · have hrun : pgr.readPage n = .ok ⟨n, pt, dp.checksum, dp.bytes⟩ := by
              simp [Pager.readPage, h, hdp, hpt, hver]
            rw [hrun] at hok
            cases hok
            exact hver
          · have hrun : pgr.readPage n = .error .checksumMismatch := by
              simp [Pager.readPage, h, hdp, hpt, hver]
            rw [hrun] at hok
            cases hok

/-- Witness pager for C3: page 0 intact, page 1 with a corrupted checksum. -/
def c3Pager : Pager :=
  ⟨7, 2, [⟨1, crc32 [0, 0], [0, 0]⟩, ⟨1, 0, [1, 0]⟩]⟩

theorem c3_read_page_checksum_witness :
    (c3Pager.pageCount ≤ 5 ∧
      c3Pager.readPage 5 = .error (.storageError "Page does not exist")) ∧
    (crc32 [1, 0] ≠ 0 ∧ c3Pager.readPage 1 = .error .checksumMismatch) ∧
    (c3Pager.readPage 0 = .ok ⟨0, .data, crc32 [0, 0], [0, 0]⟩ ∧
      BytePage.verifyChecksum ⟨0, .data, crc32 [0, 0], [0, 0]⟩ = true) := by
  refine ⟨⟨by decide, (c3_read_page_checksum c3Pager 5).1 (by decide)⟩,
    ⟨by decide, ?_⟩, ⟨by rfl, ?_⟩⟩
  · exact (c3_read_page_checksum c3Pager 1).2.1 ⟨1, 0, [1, 0]⟩ .data (by decide)
      (by rfl) (by rfl) (by decide)
  · exact (c3_read_page_checksum c3Pager 0).2.2 _ (by rfl)

/-! ## Compressed vector store (`src/vector/compression.rs`)

Vectors (`Embedding = Vec<f32>`) are modelled as lists of rationals.  The
`Delta` and `QuantizedDelta` variants cache the vector's L2 norm, an `f32`
square root with no exact rational form; the model stores the squared norm
(`normSq`) instead — no claim below reads this field.  `HashSet<VectorId>`
is modelled as a duplicate-free list (insert-if-absent at the head). -/

abbrev Embedding : Type := List Rat

abbrev VectorId : Type := Nat

inductive CompressionMode where
  | none | delta | quantizedDelta
deriving Repr, DecidableEq

structure CompressionConfig where
  mode : CompressionMode
  sparsityThreshold : Rat
  maxDensity : Rat
  anchorFrequency : Nat
  quantizationBits : Nat
deriving Repr, DecidableEq

inductive CompressedVector where
  | full (v : Embedding)
  | delta (baseId : VectorId) (deltas : List (Nat × Rat)) (normSq : Rat)
  | quantizedDelta (baseId : VectorId) (deltas : List (Nat × Int)) (scale : Rat)
      (normSq : Rat)
deriving Repr, DecidableEq

/-- CompressedVector::is_anchor. -/
def CompressedVector.isAnchor : CompressedVector → Bool
  | .full _ => true
  | _ => false

/-- CompressedVector::base_id. -/
def CompressedVector.baseId : CompressedVector → Option VectorId
  | .full _ => none
  | .delta b _ _ => some b
  | .quantizedDelta b _ _ _ => some b

/-- Squared L2 norm (the model's stand-in for the cached `norm`). -/
def l2normSq (v : Embedding) : Rat := (v.map (fun x => x * x)).sum

/-- HashSet::insert on the duplicate-free list model. -/
def hsInsert (x : VectorId) (s : List VectorId) : List VectorId :=
  if x ∈ s then s else x :: s

/-- DeltaCompressor::compress: sparse delta of `vector` against `base`.
Returns `none` when the delta is too dense (caller stores a full vector
instead).  Mode `None` and a length mismatch yield a full copy. -/
def DeltaCompressor.compress (cfg : CompressionConfig) (vector base : Embedding) :
    Option CompressedVector :=
  if cfg.mode = .none then some (.full vector)
  else if vector.length ≠ base.length then some (.full vector)
  else
    let dim := vector.length
    let normSq := l2normSq vector
    let deltas : List (Nat × Rat) :=
      (vector.zip base).enum.filterMap fun p =>
        let d := p.2.1 - p.2.2
        if cfg.sparsityThreshold < |d| then some (p.1, d) else none
    let density : Rat := (deltas.length : Rat) / (dim : Rat)
    if cfg.maxDensity < density then none
    else
      match cfg.mode with
      | .none => some (.full vector)
      | .delta => some (.delta 0 deltas normSq)
      | .quantizedDelta =>
        let maxAbs : Rat := deltas.foldl (fun m p => max m |p.2|) 0
        if maxAbs < (1 : Rat) / 10000000000 then
          some (.quantizedDelta 0 [] 1 normSq)
        else
          let scale := maxAbs / 127
          let quantized : List (Nat × Int) := deltas.filterMap fun p =>
            let q : Int := round (p.2 / scale)
            if q = 0 then none else some (p.1, q)
          some (.quantizedDelta 0 quantized scale normSq)

/-- Re-target a compressed vector at its actual base
(the `match &mut compressed { ... *base_id = neighbor_id ... }` block). -/
def setBaseId : CompressedVector → VectorId → CompressedVector
  | .delta _ ds n, nid => .delta nid ds n
  | .quantizedDelta _ ds sc n, nid => .quantizedDelta nid ds sc n
  | cv, _ => cv

/-- Apply sparse deltas in place
(`base[i] += delta` for each in-range index). -/
def applyDeltas (base : Embedding) (deltas : List (Nat × Rat)) : Embedding :=
  deltas.foldl
    (fun acc p =>
      if h : p.1 < acc.length then acc.set p.1 (acc.get ⟨p.1, h⟩ + p.2) else acc)
    base

/-- Apply quantized sparse deltas in place
(`base[i] += (q as f32) * scale`). -/
def applyQuantDeltas (base : Embedding) (deltas : List (Nat × Int)) (scale : Rat) :
    Embedding :=
  deltas.foldl
    (fun acc p =>
      if h : p.1 < acc.length then acc.set p.1 (acc.get ⟨p.1, h⟩ + (p.2 : Rat) * scale)
      else acc)
    base

structure CompressedVectorStore where
  config : CompressionConfig
  vectors : List (VectorId × CompressedVector)
  anchors : List VectorId
  totalCount : Nat
  dimensions : Nat
deriving Repr, DecidableEq

/-- CompressedVectorStore::new. -/
def CompressedVectorStore.new (dimensions : Nat) (config : CompressionConfig) :
    CompressedVectorStore :=
  ⟨config, [], [], 0, dimensions⟩

/-- Recursive decompression with fuel.  An acyclic store's base chains have
length at most the number of stored vectors, so the `vectors.length + 1`
fuel supplied by `getFull` is never exhausted; on a cyclic store (which the
source can only build when a caller reuses ids) the Rust recursion would
not terminate at all. -/
def CompressedVectorStore.getFullAux (s : CompressedVectorStore) :
    Nat → VectorId → Option Embedding
  | 0, _ => none
  | fuel + 1, id =>
    match alLookup id s.vectors with
    | none => none
    | some (.full v) => some v
    | some (.delta baseId deltas _) =>
      match s.getFullAux fuel baseId with
      | none => none
      | some base => some (applyDeltas base deltas)
    | some (.quantizedDelta baseId deltas scale _) =>
      match s.getFullAux fuel baseId with
      | none => none
      | some base => some (applyQuantDeltas base deltas scale)

/-- CompressedVectorStore::get_full. -/
def CompressedVectorStore.getFull (s : CompressedVectorStore) (id : VectorId) :
    Option Embedding :=
  s.getFullAux (s.vectors.length + 1) id

/-- CompressedVectorStore::insert.  Rejects wrong dimensions, stores an
anchor when the mode is off, no anchor exists yet, or the counter hits the
anchor frequency; otherwise tries to delta-compress against the decompressed
neighbor, falling back to an anchor.  With `anchor_frequency = 0` the
source's `%` panics on the first non-anchor insert; theorems below assume
frequency at least 1. -/
def CompressedVectorStore.insert (s : CompressedVectorStore) (id : VectorId)
    (vector : Embedding) (neighborId : Option VectorId) :
    Bool × CompressedVectorStore :=
  if vector.length ≠ s.dimensions then (false, s)
  else
    let s := { s with totalCount := s.totalCount + 1 }
    if s.config.mode = .none ∨ s.anchors = [] ∨
        s.totalCount % s.config.anchorFrequency = 0 then
      (true, { s with vectors := alInsert id (.full vector) s.vectors,
                      anchors := hsInsert id s.anchors })
    else
      match neighborId with
      | some nid =>
        match s.getFull nid with
        | some baseVector =>
          match DeltaCompressor.compress s.config vector baseVector with
          | some compressed =>
            (true, { s with vectors := alInsert id (setBaseId compressed nid) s.vectors })
          | none =>
            (true, { s with vectors := alInsert id (.full vector) s.vectors,
                            anchors := hsInsert id s.anchors })
        | none =>
          (true, { s with vectors := alInsert id (.full vector) s.vectors,
                          anchors := hsInsert id s.anchors })
      | none =>
        (true, { s with vectors := alInsert id (.full vector) s.vectors,
                        anchors := hsInsert id s.anchors })

/-- CompressedVectorStore::remove: an anchor with dependents is kept
(returns `false`, store unchanged); otherwise the vector is removed and the
result says whether it was present. -/
def CompressedVectorStore.remove (s : CompressedVectorStore) (id : VectorId) :
    Bool × CompressedVectorStore :=
  if s.anchors.contains id then
    if s.vectors.any (fun p => p.2.baseId == some id) then (false, s)
    else
      let s2 : CompressedVectorStore := { s with anchors := s.anchors.erase id }
      ((alLookup id s2.vectors).isSome, { s2 with vectors := alErase id s2.vectors })
  else
    ((alLookup id s.vectors).isSome, { s with vectors := alErase id s.vectors })

/-! ### Reachable store states -/

inductive StoreOp where
  | insertOp (id : VectorId) (v : Embedding) (neighborId : Option VectorId)
  | removeOp (id : VectorId)

def CompressedVectorStore.applyOp (s : CompressedVectorStore) : StoreOp → CompressedVectorStore
  | .insertOp id v n => (s.insert id v n).2
  | .removeOp id => (s.remove id).2

def runStoreOps (s : CompressedVectorStore) (ops : List StoreOp) : CompressedVectorStore :=
  ops.foldl CompressedVectorStore.applyOp s

/-! ### Association-list membership lemmas for the store -/

theorem alLookup_some_mem {κ α : Type} [DecidableEq κ] {k : κ} {v : α}
    {xs : List (κ × α)} (h : alLookup k xs = some v) : (k, v) ∈ xs := by
  induction xs with
  | nil => simp [alLookup] at h
  | cons hd tl ih =>
    obtain ⟨k2, v2⟩ := hd
    by_cases h2 : k = k2
    · subst h2
      simp [alLookup] at h
      simp [h]
    · simp only [alLookup, if_neg h2] at h
      exact List.mem_cons_of_mem _ (ih h)

theorem mem_alInsert {κ α : Type} [DecidableEq κ] {p : κ × α} {k : κ} {v : α}
    {xs : List (κ × α)} (h : p ∈ alInsert k v xs) : p = (k, v) ∨ p ∈ xs := by
  induction xs with
  | nil =>
    simp only [alInsert, List.mem_singleton] at h
    exact Or.inl h
  | cons hd tl ih =>
    obtain ⟨k2, v2⟩ := hd
    by_cases h2 : k = k2
    · simp only [alInsert, if_pos h2, List.mem_cons] at h
      rcases h with h | h
      · exact Or.inl h
      · exact Or.inr (List.mem_cons_of_mem _ h)
    · simp only [alInsert, if_neg h2, List.mem_cons] at h
      rcases h with h | h
      · exact Or.inr (by simp [h])
      · rcases ih h with h3 | h3
        · exact Or.inl h3
        · exact Or.inr (List.mem_cons_of_mem _ h3)

theorem alErase_sublist {κ α : Type} [DecidableEq κ] (k : κ) (xs : List (κ × α)) :
    (alErase k xs).Sublist xs := by
  induction xs with
  | nil => simp [alErase]
  | cons hd tl ih =>
    obtain ⟨k2, v2⟩ := hd
    by_cases h : k = k2
    · simp only [alErase, if_pos h]
      exact List.sublist_cons_self _ _
    · simp only [alErase, if_neg h]
      exact ih.cons₂ _

theorem alLookup_isSome_alInsert {κ α : Type} [DecidableEq κ] {b : κ}
    {xs : List (κ × α)} (h : (alLookup b xs).isSome = true) (k : κ) (v : α) :
    (alLookup b (alInsert k v xs)).isSome = true := by
  by_cases h2 : b = k
  · subst h2
    rw [alLookup_alInsert_self]
    rfl
  · rw [alLookup_alInsert_ne _ _ h2]
    exact h

theorem getFullAux_lookup_isSome {s : CompressedVectorStore} {fuel : Nat}
    {id : VectorId} {e : Embedding} (h : s.getFullAux (fuel + 1) id = some e) :
    (alLookup id s.vectors).isSome = true := by
  unfold CompressedVectorStore.getFullAux at h
  cases hl : alLookup id s.vectors with
  | none => simp [hl] at h
  | some cv => rfl

theorem getFull_lookup_isSome {s : CompressedVectorStore} {id : VectorId}
    {e : Embedding} (h : s.getFull id = some e) :
    (alLookup id s.vectors).isSome = true :=
  getFullAux_lookup_isSome h

/-! ## Claim C6: no stored delta exceeds the density bound -/

/-- The density bound the claim asserts for one stored vector: a
delta-encoded vector retains at most a `max_density` fraction of the
dimension's components. -/
def densityOk (cfg : CompressionConfig) (dim : Nat) : CompressedVector → Prop
  | .full _ => True
  | .delta _ ds _ => (ds.length : Rat) / (dim : Rat) ≤ cfg.maxDensity
  | .quantizedDelta _ ds _ _ => (ds.length : Rat) / (dim : Rat) ≤ cfg.maxDensity

theorem densityOk_setBaseId {cfg : CompressionConfig} {dim : Nat}
    {cv : CompressedVector} (h : densityOk cfg dim cv) (nid : VectorId) :
    densityOk cfg dim (setBaseId cv nid) := by
  cases cv <;> simpa [setBaseId, densityOk] using h

theorem compress_densityOk {cfg : CompressionConfig} {v base : Embedding}
    {cv : CompressedVector} (hdim : 0 < v.length)
    (h : DeltaCompressor.compress cfg v base = some cv) :
    densityOk cfg v.length cv := by
  have hdimQ : (0 : Rat) < (v.length : Rat) := by exact_mod_cast hdim
  by_cases hmode : cfg.mode = .none
  · simp only [DeltaCompressor.compress, if_pos hmode] at h
    cases h
    trivial
  · by_cases hlen : v.length ≠ base.length
    · simp only [DeltaCompressor.compress, if_neg hmode, if_pos hlen] at h
      cases h
      trivial
    · simp only [DeltaCompressor.compress, if_neg hmode, if_neg hlen] at h
      set deltas : List (Nat × Rat) :=
        (v.zip base).enum.filterMap (fun p =>
          let d := p.2.1 - p.2.2
          if cfg.sparsityThreshold < |d| then some (p.1, d) else none) with hdeltas
      by_cases hden : cfg.maxDensity < (deltas.length : Rat) / (v.length : Rat)
      · rw [if_pos hden] at h
        cases h
      · rw [if_neg hden] at h
        have hle : (deltas.length : Rat) / (v.length : Rat) ≤ cfg.maxDensity :=
          not_lt.mp hden
        have hnonneg : (0 : Rat) ≤ (deltas.length : Rat) / (v.length : Rat) :=
          div_nonneg (Nat.cast_nonneg _) (le_of_lt hdimQ)
        cases hm2 : cfg.mode with
        | none => exact absurd hm2 hmode
        | delta =>
          rw [hm2] at h
          cases h
          exact hle
        | quantizedDelta =>
          rw [hm2] at h
          by_cases hmax : (deltas.foldl (fun m p => max m |p.2|) 0) < (1 : Rat) / 10000000000
          · rw [if_pos hmax] at h
            cases h
            show ((List.length [] : Nat) : Rat) / (v.length : Rat) ≤ cfg.maxDensity
            simpa using le_trans hnonneg hle
          · rw [if_neg hmax] at h
            cases h
            show ((deltas.filterMap _).length : Rat) / (v.length : Rat) ≤ cfg.maxDensity
            refine le_trans ?_ hle
            rw [div_le_div_iff_of_pos_right hdimQ]
            exact_mod_cast List.length_filterMap_le _ _

/-- Store invariant carrying the density bound for every stored vector. -/
def StoreDensityInv (cfg : CompressionConfig) (dim : Nat)
    (s : CompressedVectorStore) : Prop :=
  s.config = cfg ∧ s.dimensions = dim ∧ ∀ p ∈ s.vectors, densityOk cfg dim p.2

theorem storeDensityInv_insert {cfg : CompressionConfig} {dim : Nat} (hdim : 0 < dim)
    {s : CompressedVectorStore} (hinv : StoreDensityInv cfg dim s)
    (id : VectorId) (v : Embedding) (n : Option VectorId) :
    StoreDensityInv cfg dim (s.insert id v n).2 := by
  obtain ⟨hcfg, hdims, hvecs⟩ := hinv
  have hfull : ∀ (A : List VectorId) (T : Nat),
      StoreDensityInv cfg dim
        { s with vectors := alInsert id (.full v) s.vectors, anchors := A,
                 totalCount := T } := by
    intro A T
    refine ⟨hcfg, hdims, ?_⟩
    intro p hp
    rcases mem_alInsert hp with h | h
    · cases h
      trivial
    · exact hvecs p h
  unfold CompressedVectorStore.insert
  by_cases hlen : v.length ≠ s.dimensions
  · simp only [if_pos hlen]
    exact ⟨hcfg, hdims, hvecs⟩
  · simp only [if_neg hlen]
    by_cases hanc : s.config.mode = .none ∨ s.anchors = [] ∨
        (s.totalCount + 1) % s.config.anchorFrequency = 0
    · simp only [if_pos hanc]
      exact hfull _ _
    · simp only [if_neg hanc]
      cases n with
      | none => exact hfull _ _
      | some nid =>
        cases hg : CompressedVectorStore.getFull { s with totalCount := s.totalCount + 1 } nid with
        | none =>
          simp only [hg]
          exact hfull _ _
        | some baseVector =>
          cases hc : DeltaCompressor.compress s.config v baseVector with
          | none =>
            simp only [hg, hc]
            exact hfull _ _
          | some compressed =>
            simp only [hg, hc]
            refine ⟨hcfg, hdims, ?_⟩
            intro p hp
            rcases mem_alInsert hp with h | h
            · cases h
              have hvlen : v.length = dim := by
                rw [not_not.mp hlen, hdims]
              have hd : densityOk cfg v.length compressed :=
                compress_densityOk (by rw [hvlen]; exact hdim) (hcfg ▸ hc)
              exact hvlen ▸ densityOk_setBaseId hd nid
            · exact hvecs p h

theorem runStoreOps_preserve (P : CompressedVectorStore → Prop)
    (hstep : ∀ s op, P s → P (s.applyOp op)) (ops : List StoreOp) :
    ∀ s, P s → P (runStoreOps s ops) := by
  induction ops with
  | nil => intro s h; exact h
  | cons op rest ih =>
    intro s h
    unfold runStoreOps
    simp only [List.foldl_cons]
    exact ih _ (hstep s op h)

theorem runStoreOps_preserve_inserts (P : CompressedVectorStore → Prop)
    (hstep : ∀ s i v n, P s → P (s.insert i v n).2) :
    ∀ ops : List StoreOp, (∀ op ∈ ops, ∃ i v n, op = StoreOp.insertOp i v n) →
      ∀ s, P s → P (runStoreOps s ops) := by
  intro ops
  induction ops with
  | nil => intro _ s h; exact h
  | cons op rest ih =>
    intro hops s h
    obtain ⟨i, v, n, hop⟩ := hops op (by simp)
    subst hop
    unfold runStoreOps
    simp only [List.foldl_cons]
    exact ih (fun op2 h2 => hops op2 (List.mem_cons_of_mem _ h2)) _ (hstep s i v n h)

theorem storeDensityInv_remove {cfg : CompressionConfig} {dim : Nat}
    {s : CompressedVectorStore} (hinv : StoreDensityInv cfg dim s) (id : VectorId) :
    StoreDensityInv cfg dim (s.remove id).2 := by
  obtain ⟨hcfg, hdims, hvecs⟩ := hinv
  have herase : ∀ A : List VectorId,
      StoreDensityInv cfg dim { s with vectors := alErase id s.vectors, anchors := A } := by
    intro A
    exact ⟨hcfg, hdims, fun p hp => hvecs p ((alErase_sublist id s.vectors).mem hp)⟩
  unfold CompressedVectorStore.remove
  by_cases hanc : s.anchors.contains id = true
  · simp only [hanc, if_true]
    by_cases hdep : s.vectors.any (fun p => p.2.baseId == some id) = true
    · simp only [hdep, if_true]
      exact ⟨hcfg, hdims, hvecs⟩
    · simp only [hdep, if_false]
      exact herase _
  · simp only [Bool.not_eq_true] at hanc
    simp only [hanc, Bool.false_eq_true, if_false]
    exact herase _

/-- Claim C6: in every store reachable by any sequence of inserts and
removes (with positive dimension and anchor frequency at least 1, where the
source does not panic), every stored `Delta` or `QuantizedDelta` vector
retains at most a `max_density` fraction of the dimension's components; a
denser candidate is stored as a `Full` anchor instead by
`compress` returning `None`. -/
theorem c6_density_bound (cfg : CompressionConfig) (dim : Nat) (ops : List StoreOp)
    (hfreq : 1 ≤ cfg.anchorFrequency) (hdim : 0 < dim) :
    ∀ id cv,
      alLookup id (runStoreOps (CompressedVectorStore.new dim cfg) ops).vectors = some cv →
      densityOk cfg dim cv := by
  have hrun : StoreDensityInv cfg dim (runStoreOps (CompressedVectorStore.new dim cfg) ops) := by
    refine runStoreOps_preserve (StoreDensityInv cfg dim) ?_ ops _
      ⟨rfl, rfl, by simp [CompressedVectorStore.new]⟩
    intro s op h
    cases op with
    | insertOp id v n => exact storeDensityInv_insert hdim h id v n
    | removeOp id => exact storeDensityInv_remove h id
  intro id cv hcv
  exact hrun.2.2 (id, cv) (alLookup_some_mem hcv)

/-! ## Claim C4: bases of delta vectors -/

/-- The claim's invariant as stated: every stored non-anchor's `base_id`
identifies an anchor, i.e. a `Full` vector stored in the same store. -/
def AnchorBaseProp (s : CompressedVectorStore) : Prop :=
  ∀ p ∈ s.vectors, ∀ b, p.2.baseId = some b →
    ∃ emb, alLookup b s.vectors = some (CompressedVector.full emb)

def c4Cfg : CompressionConfig := ⟨.delta, 1 / 1000, 15 / 100, 8, 8⟩

def c4Ops : List StoreOp :=
  [.insertOp 0 [1, 0] none, .insertOp 1 [1, 0] (some 0), .insertOp 2 [1, 0] (some 1)]

def c4Store : CompressedVectorStore :=
  runStoreOps (CompressedVectorStore.new 2 c4Cfg) c4Ops

/-- Counterexample to C4 as stated: after inserting vector 1 as a delta
against anchor 0 and vector 2 with vector 1 as the neighbor, vector 2 is
stored as a delta whose `base_id` 1 is itself a delta, not a `Full` anchor. -/
theorem c4_counterexample : ¬ AnchorBaseProp c4Store := by
  intro h
  have hmem : ((2 : VectorId), CompressedVector.delta 1 [] 1) ∈ c4Store.vectors := by
    with_unfolding_all decide
  obtain ⟨emb, he⟩ := h _ hmem 1 rfl
  have h3 : alLookup 1 c4Store.vectors = some (CompressedVector.delta 0 [] 1) := by
    with_unfolding_all decide
  rw [h3] at he
  simp at he

/-- Store invariant: every stored vector's base is a stored vector. -/
def BaseExistsInv (s : CompressedVectorStore) : Prop :=
  ∀ p ∈ s.vectors, ∀ b, p.2.baseId = some b → (alLookup b s.vectors).isSome = true

theorem baseExistsInv_insert {s : CompressedVectorStore} (hinv : BaseExistsInv s)
    (id : VectorId) (v : Embedding) (n : Option VectorId) :
    BaseExistsInv (s.insert id v n).2 := by
  have hfull : ∀ (A : List VectorId) (T : Nat),
      BaseExistsInv
        { s with vectors := alInsert id (.full v) s.vectors, anchors := A,
                 totalCount := T } := by
    intro A T p hp b hb
    rcases mem_alInsert hp with h | h
    · cases h
      cases hb
    · exact alLookup_isSome_alInsert (hinv p h b hb) _ _
  unfold CompressedVectorStore.insert
  by_cases hlen : v.length ≠ s.dimensions
  · simp only [if_pos hlen]
    exact hinv
  · simp only [if_neg hlen]
    by_cases hanc : s.config.mode = .none ∨ s.anchors = [] ∨
        (s.totalCount + 1) % s.config.anchorFrequency = 0
    · simp only [if_pos hanc]
      exact hfull _ _
    · simp only [if_neg hanc]
      cases n with
      | none => exact hfull _ _
      | some nid =>
        cases hg : CompressedVectorStore.getFull { s with totalCount := s.totalCount + 1 } nid with
        | none =>
          simp only [hg]
          exact hfull _ _
        | some baseVector =>
          cases hc : DeltaCompressor.compress s.config v baseVector with
          | none =>
            simp only [hg, hc]
            exact hfull _ _
          | some compressed =>
            simp only [hg, hc]
            intro p hp b hb
            rcases mem_alInsert hp with h | h
            · cases h
              have hnid := getFull_lookup_isSome hg
              have hbnid : b = nid := by
                cases compressed with
                | full e => cases hb
                | delta b0 ds nq =>
                  simp only [setBaseId, CompressedVector.baseId] at hb
                  injection hb with hb
                  exact hb.symm
                | quantizedDelta b0 ds sc nq =>
                  simp only [setBaseId, CompressedVector.baseId] at hb
                  injection hb with hb
                  exact hb.symm
              subst hbnid
              exact alLookup_isSome_alInsert hnid _ _
            · exact alLookup_isSome_alInsert (hinv p h b hb) _ _

/-- Claim C4, amended: in every store reachable by a sequence of inserts
alone, every stored non-anchor's `base_id` identifies a vector that exists
in the same store (not necessarily an anchor: a delta may be based on
another delta, and removing a non-anchor with dependents can dangle bases). -/
theorem c4_delta_base_exists (cfg : CompressionConfig) (dim : Nat) (ops : List StoreOp)
    (hops : ∀ op ∈ ops, ∃ i v n, op = StoreOp.insertOp i v n) :
    ∀ id cv,
      alLookup id (runStoreOps (CompressedVectorStore.new dim cfg) ops).vectors = some cv →
      ∀ b, cv.baseId = some b →
        ∃ cv2,
          alLookup b (runStoreOps (CompressedVectorStore.new dim cfg) ops).vectors = some cv2 := by
  have hrun : BaseExistsInv (runStoreOps (CompressedVectorStore.new dim cfg) ops) := by
    refine runStoreOps_preserve_inserts BaseExistsInv ?_ ops hops _ ?_
    · intro s i v n h
      exact baseExistsInv_insert h i v n
    · intro p hp
      simp [CompressedVectorStore.new] at hp
  intro id cv hcv b hb
  have := hrun (id, cv) (alLookup_some_mem hcv) b hb
  rcases Option.isSome_iff_exists.mp this with ⟨cv2, hcv2⟩
  exact ⟨cv2, hcv2⟩

theorem c4_delta_base_exists_witness :
    (∀ op ∈ c4Ops, ∃ i v n, op = StoreOp.insertOp i v n) ∧
    ∃ cv2, alLookup 1 c4Store.vectors = some cv2 := by
  have hops : ∀ op ∈ c4Ops, ∃ i v n, op = StoreOp.insertOp i v n := by
    intro op hop
    simp only [c4Ops, List.mem_cons, List.not_mem_nil, or_false] at hop
    rcases hop with h | h | h <;> exact ⟨_, _, _, h⟩
  exact ⟨hops, c4_delta_base_exists c4Cfg 2 c4Ops hops 2 (.delta 1 [] 1) (by with_unfolding_all decide) 1 rfl⟩

/-! ## Claim C5: removal of vectors with dependents -/

/-- The claim as stated, for one store and id: if any other stored vector
has `x` as its base, `remove(x)` fails and leaves the store unchanged. -/
def RemoveGuardProp (s : CompressedVectorStore) (x : VectorId) : Prop :=
  (∃ p ∈ s.vectors, p.1 ≠ x ∧ p.2.baseId = some x) →
    (s.remove x).1 = false ∧ (s.remove x).2 = s

/-- Counterexample to C5 as stated: in `c4Store`, vector 2 depends on the
non-anchor vector 1, yet `remove 1` succeeds (the dependent check only
guards anchors). -/
theorem c5_counterexample : ¬ RemoveGuardProp c4Store 1 := by
  intro h
  have h2 := h ⟨(2, .delta 1 [] 1), by with_unfolding_all decide, by with_unfolding_all decide, rfl⟩
  have h3 : (c4Store.remove 1).1 = true := by with_unfolding_all decide
  rw [h2.1] at h3
  cases h3

/-- Claim C5, amended: removal of an *anchor* on which some stored vector
depends fails and leaves the store unchanged. -/
theorem c5_anchor_remove_dependents (s : CompressedVectorStore) (x : VectorId)
    (hanchor : s.anchors.contains x = true)
    (hdep : ∃ p ∈ s.vectors, p.2.baseId = some x) :
    s.remove x = (false, s) := by
  obtain ⟨p, hp, hb⟩ := hdep
  have hany : s.vectors.any (fun q => q.2.baseId == some x) = true := by
    rw [List.any_eq_true]
    exact ⟨p, hp, by simp [hb]⟩
  unfold CompressedVectorStore.remove
  rw [hanchor, hany]
  simp

/-- Witness store for the amended C5: anchor 0 with delta 1 based on it. -/
def c5Store : CompressedVectorStore :=
  runStoreOps (CompressedVectorStore.new 2 c4Cfg)
    [.insertOp 0 [1, 0] none, .insertOp 1 [1, 0] (some 0)]

theorem c5_anchor_remove_dependents_witness :
    c5Store.anchors.contains 0 = true ∧
    ((1 : VectorId), CompressedVector.delta 0 [] 1) ∈ c5Store.vectors ∧
    c5Store.remove 0 = (false, c5Store) := by
  refine ⟨by with_unfolding_all decide, by with_unfolding_all decide, ?_⟩
  exact c5_anchor_remove_dependents c5Store 0 (by with_unfolding_all decide)
    ⟨(1, .delta 0 [] 1), by with_unfolding_all decide, rfl⟩

theorem c6_density_bound_witness :
    1 ≤ c4Cfg.anchorFrequency ∧ 0 < 2 ∧
    densityOk c4Cfg 2 (CompressedVector.delta 0 [] 1) := by
  refine ⟨by with_unfolding_all decide, by with_unfolding_all decide, ?_⟩
  exact c6_density_bound c4Cfg 2 c4Ops (by with_unfolding_all decide) (by with_unfolding_all decide) 1
    (.delta 0 [] 1) (by with_unfolding_all decide)

/-! ## Distance metrics (`src/vector/distance.rs`)

Manhattan and DotProduct are exact on rationals.  Euclidean takes an `f32`
square root, which has no rational form; it is modelled by the squared L2
distance — the square root is strictly monotone on nonnegatives, so every
comparison the graph algorithms make is preserved.  Cosine divides the dot
product by the product of the two norms (two more square roots); it is
modelled by `1 - s·|s|` where `s² = dot²/(‖a‖²‖b‖²)` with the sign of the
dot product, again an order-preserving surrogate of `1 - s` (the exact
rational `s` satisfies `|s| ≤ 1`, so the source's clamp is the identity).
No claim below evaluates the Cosine or Euclidean branch. -/

inductive Distance where
  | cosine | euclidean | dotProduct | manhattan
deriving Repr, DecidableEq

def dotProduct (a b : List Rat) : Rat :=
  ((a.zip b).map (fun p => p.1 * p.2)).sum

def manhattanDistance (a b : List Rat) : Rat :=
  ((a.zip b).map (fun p => |p.1 - p.2|)).sum

def euclideanDistanceSq (a b : List Rat) : Rat :=
  ((a.zip b).map (fun p => (p.1 - p.2) * (p.1 - p.2))).sum

def cosineDistanceModel (a b : List Rat) : Rat :=
  let dot := dotProduct a b
  let na2 := l2normSq a
  let nb2 := l2normSq b
  if na2 = 0 ∨ nb2 = 0 then 1
  else 1 - dot * |dot| / (na2 * nb2)

/-- calculate_distance. -/
def calculateDistance (metric : Distance) (a b : List Rat) : Rat :=
  match metric with
  | .cosine => cosineDistanceModel a b
  | .euclidean => euclideanDistanceSq a b
  | .dotProduct => -(dotProduct a b)
  | .manhattan => manhattanDistance a b

/-! ## HNSW graph (`src/vector/hnsw.rs`) -/

/-- MAX_LAYERS. -/
def hnswMaxLayers : Nat := 16

/-- VectorConfig (`src/vector/types.rs`). -/
structure VectorConfig where
  dimensions : Nat
  distance : Distance
  m : Nat
  efConstruction : Nat
  efSearch : Nat
  lazyEmbedding : Bool
  embeddingModel : Option String
  compression : CompressionConfig
deriving Repr, DecidableEq

structure HnswNode where
  id : VectorId
  vector : Option (List Rat)
  text : Option String
  neighbors : List (List VectorId)
  layer : Nat
deriving Repr, DecidableEq

/-- HnswNode::new. -/
def HnswNode.new (id : VectorId) (vector : List Rat) (layer : Nat) : HnswNode :=
  ⟨id, some vector, none, List.replicate (layer + 1) [], layer⟩

/-- HnswNode::get_neighbors (out-of-range layers give the empty slice). -/
def HnswNode.getNeighbors (n : HnswNode) (layer : Nat) : List VectorId :=
  (n.neighbors[layer]?).getD []

/-- HnswIndex state.  `level_mult` is omitted: it is consumed only by
`random_layer`, whose sampled value the model receives as an explicit
`layer` argument (clamped like the source to `MAX_LAYERS - 1`). -/
structure HnswIndex where
  config : VectorConfig
  nodes : List (VectorId × HnswNode)
  entryPoint : Option VectorId
  maxLayer : Nat
  nextId : Nat
deriving Repr, DecidableEq

def HnswIndex.new (config : VectorConfig) : HnswIndex :=
  ⟨config, [], none, 0, 0⟩

structure Candidate where
  id : VectorId
  distance : Rat
deriving Repr, DecidableEq

/-- Total comparison on rationals; `partial_cmp(..).unwrap_or(Equal)` on
non-NaN values. -/
def ratCompare (a b : Rat) : Ordering :=
  if a < b then .lt else if b < a then .gt else .eq

/-- Candidate's `Ord`: reversed on distance, giving min-heap behaviour in
Rust's max-heap. -/
def candidateCmp (a b : Candidate) : Ordering := ratCompare b.distance a.distance

/-- MaxCandidate's `Ord`: by distance. -/
def maxCandidateCmp (a b : Candidate) : Ordering := ratCompare a.distance b.distance

/-! ### Rust's `BinaryHeap`

`std::collections::BinaryHeap` is replicated exactly (array layout, `push`
with sift-up, `pop` swapping in the last element followed by
`sift_down_to_bottom`, iteration in array order), because
`BinaryHeap::into_iter` surfaces the array order to `search_layer`'s final
sort.  Sift positions strictly decrease (sift-up) or strictly increase
towards the array's end (sift-down), so the fuel arguments, set to those
bounds, are never exhausted. -/

def siftUpFuel (cmp : Candidate → Candidate → Ordering) (start : Nat) (x : Candidate) :
    Nat → Nat → Array Candidate → Array Candidate
  | 0, pos, a => a.setD pos x
  | fuel + 1, pos, a =>
    if start < pos then
      let parent := (pos - 1) / 2
      match a[parent]? with
      | none => a.setD pos x
      | some pv =>
        if cmp x pv = .gt then siftUpFuel cmp start x fuel parent (a.setD pos pv)
        else a.setD pos x
    else a.setD pos x

def heapPush (cmp : Candidate → Candidate → Ordering) (a : Array Candidate)
    (x : Candidate) : Array Candidate :=
  siftUpFuel cmp 0 x a.size a.size (a.push x)

def siftDownGo (cmp : Candidate → Candidate → Ordering) :
    Nat → Array Candidate → Nat → Array Candidate × Nat
  | 0, a, pos => (a, pos)
  | fuel + 1, a, pos =>
    let child := 2 * pos + 1
    if child ≤ a.size - 2 then
      match a[child]?, a[child + 1]? with
      | some c1, some c2 =>
        let child := if cmp c1 c2 ≠ .gt then child + 1 else child
        match a[child]? with
        | some cv => siftDownGo cmp fuel (a.setD pos cv) child
        | none => (a, pos)
      | _, _ => (a, pos)
    else (a, pos)

def siftDownToBottom (cmp : Candidate → Candidate → Ordering) (a : Array Candidate)
    (x : Candidate) (start : Nat) : Array Candidate :=
  let res := siftDownGo cmp a.size a start
  let a2 := res.1
  let pos := res.2
  let child := 2 * pos + 1
  let res2 : Array Candidate × Nat :=
    if child = a2.size - 1 ∧ 1 ≤ a2.size then
      match a2[child]? with
      | some cv => (a2.setD pos cv, child)
      | none => (a2, pos)
    else (a2, pos)
  siftUpFuel cmp start x res2.2 res2.2 res2.1

def heapPop (cmp : Candidate → Candidate → Ordering) (a : Array Candidate) :
    Option (Candidate × Array Candidate) :=
  match a.back? with
  | none => none
  | some last =>
    let a2 := a.pop
    if a2.size = 0 then some (last, a2)
    else
      match a2[0]? with
      | none => some (last, a2)
      | some root => some (root, siftDownToBottom cmp a2 last 0)

/-! ### Stable sorting by distance

`sort_by(|a, b| a.distance.partial_cmp(&b.distance).unwrap_or(Equal))` is
Rust's stable slice sort.  As a function of the input list, a stable sort
by a total key is unique, so it is modelled by stable insertion sort. -/

def insertSortedKey {α : Type} (key : α → Rat) (x : α) : List α → List α
  | [] => [x]
  | y :: ys => if key x ≤ key y then x :: y :: ys else y :: insertSortedKey key x ys

def sortByKey {α : Type} (key : α → Rat) : List α → List α
  | [] => []
  | x :: xs => insertSortedKey key x (sortByKey key xs)

/-! ### Layer search -/

/-- distance_to_node. -/
def distanceToNode (config : VectorConfig) (nodes : List (VectorId × HnswNode))
    (query : List Rat) (nodeId : VectorId) : Except KeraDBError Rat :=
  match alLookup nodeId nodes with
  | none => .error (.notFound "Node not found")
  | some node =>
    match node.vector with
    | none => .error (.invalidFormat "Node has no vector")
    | some v => .ok (calculateDistance config.distance query v)

/-- Greedy single-best descent loop of `search_layer_single`.  Each outer
iteration strictly decreases the current distance, so the `nodes.length + 1`
fuel provided by `searchLayerSingle` is never exhausted. -/
def searchLayerSingleGo (config : VectorConfig) (nodes : List (VectorId × HnswNode))
    (query : List Rat) (layer : Nat) :
    Nat → VectorId → Rat → Except KeraDBError VectorId
  | 0, current, _ => .ok current
  | fuel + 1, current, currentDist =>
    match alLookup current nodes with
    | none => .error (.notFound "Node not found")
    | some node =>
      match (node.getNeighbors layer).foldlM
          (fun (acc : VectorId × Rat × Bool) nid => do
            let dist ← distanceToNode config nodes query nid
            if dist < acc.2.1 then pure (nid, dist, true) else pure acc)
          (current, currentDist, false) with
      | .error e => .error e
      | .ok (newCur, newDist, changed) =>
        if changed then searchLayerSingleGo config nodes query layer fuel newCur newDist
        else .ok current

/-- search_layer_single. -/
def searchLayerSingle (config : VectorConfig) (nodes : List (VectorId × HnswNode))
    (query : List Rat) (entry : VectorId) (layer : Nat) : Except KeraDBError VectorId :=
  match distanceToNode config nodes query entry with
  | .error e => .error e
  | .ok d => searchLayerSingleGo config nodes query layer (nodes.length + 1) entry d

def totalNeighborCount (nodes : List (VectorId × HnswNode)) : Nat :=
  (nodes.map (fun p => (p.2.neighbors.map List.length).sum)).sum

/-- Beam-search loop of `search_layer`.  Each iteration pops one candidate;
candidates are pushed once per first visit of an id, so at most
`1 + totalNeighborCount` pushes happen and the fuel bound of `searchLayer`
is never exhausted. -/
def searchLayerGo (config : VectorConfig) (nodes : List (VectorId × HnswNode))
    (query : List Rat) (layer ef : Nat) :
    Nat → Array Candidate → Array Candidate → List VectorId →
    Except KeraDBError (Array Candidate)
  | 0, _, results, _ => .ok results
  | fuel + 1, candidates, results, visited =>
    match heapPop candidateCmp candidates with
    | none => .ok results
    | some (current, candidates) =>
      let stop : Bool :=
        match results[0]? with
        | some worst => decide (worst.distance < current.distance) && decide (ef ≤ results.size)
        | none => false
      match stop with
      | true => .ok results
      | false =>
        match alLookup current.id nodes with
        | none => searchLayerGo config nodes query layer ef fuel candidates results visited
        | some node =>
          match (node.getNeighbors layer).foldlM
              (fun (st : Array Candidate × Array Candidate × List VectorId) nid => do
                if nid ∈ st.2.2 then pure st
                else
                  let visited := nid :: st.2.2
                  let dist ← distanceToNode config nodes query nid
                  let curWorst : Option Candidate := st.2.1[0]?
                  let belowWorst : Bool :=
                    match curWorst with
                    | some worst => decide (dist < worst.distance)
                    | none => true
                  let shouldAdd : Bool := decide (st.2.1.size < ef) || belowWorst
                  if shouldAdd = true then
                    let candidates := heapPush candidateCmp st.1 ⟨nid, dist⟩
                    let results := heapPush maxCandidateCmp st.2.1 ⟨nid, dist⟩
                    let results :=
                      if ef < results.size then
                        match heapPop maxCandidateCmp results with
                        | some (_, r) => r
                        | none => results
                      else results
                    pure (candidates, results, visited)
                  else pure (st.1, st.2.1, visited))
              (candidates, results, visited) with
          | .error e => .error e
          | .ok (candidates, results, visited) =>
            searchLayerGo config nodes query layer ef fuel candidates results visited

/-- search_layer: beam search returning up to `ef` nearest candidates,
sorted by ascending distance. -/
def searchLayer (config : VectorConfig) (nodes : List (VectorId × HnswNode))
    (query : List Rat) (entry : VectorId) (ef layer : Nat) :
    Except KeraDBError (List Candidate) :=
  match distanceToNode config nodes query entry with
  | .error e => .error e
  | .ok entryDist =>
    match searchLayerGo config nodes query layer ef
        (1 + nodes.length + totalNeighborCount nodes)
        (heapPush candidateCmp #[] ⟨entry, entryDist⟩)
        (heapPush maxCandidateCmp #[] ⟨entry, entryDist⟩)
        [entry] with
    | .error e => .error e
    | .ok res => .ok (sortByKey Candidate.distance res.toList)

/-! ### Insert -/

/-- HashMap mutation of one node in place (`nodes.get_mut(&id)`); a missing
id leaves the map unchanged. -/
def updateNode (id : VectorId) (f : HnswNode → HnswNode)
    (nodes : List (VectorId × HnswNode)) : List (VectorId × HnswNode) :=
  nodes.map (fun p => if p.1 = id then (p.1, f p.2) else p)

/-- Reverse-edge step inside the insert loop: append `id` to the selected
neighbor's layer-`lc` adjacency if absent, recording the neighbor for later
pruning when its degree passed `2·M`. -/
def addReverseEdge (config : VectorConfig) (id : VectorId) (lc : Nat)
    (acc : List (VectorId × HnswNode) × List (VectorId × List Rat × List VectorId))
    (neighborId : VectorId) :
    List (VectorId × HnswNode) × List (VectorId × List Rat × List VectorId) :=
  match alLookup neighborId acc.1 with
  | none => acc
  | some neighbor =>
    if h : lc < neighbor.neighbors.length then
      if id ∈ neighbor.neighbors.get ⟨lc, h⟩ then acc
      else
        if config.m * 2 < (neighbor.neighbors.get ⟨lc, h⟩ ++ [id]).length then
          match neighbor.vector with
          | some v =>
            (updateNode neighborId
                (fun n =>
                  { n with neighbors := n.neighbors.set lc (neighbor.neighbors.get ⟨lc, h⟩ ++ [id]) })
                acc.1,
              acc.2 ++ [(neighborId, v, neighbor.neighbors.get ⟨lc, h⟩ ++ [id])])
          | none =>
            (updateNode neighborId
                (fun n =>
                  { n with neighbors := n.neighbors.set lc (neighbor.neighbors.get ⟨lc, h⟩ ++ [id]) })
                acc.1,
              acc.2)
        else
          (updateNode neighborId
              (fun n =>
                { n with neighbors := n.neighbors.set lc (neighbor.neighbors.get ⟨lc, h⟩ ++ [id]) })
              acc.1,
            acc.2)
    else acc

/-- Pruning of one over-full neighbor: re-rank its layer-`lc` list by true
distance and truncate to `M`. -/
def pruneOne (config : VectorConfig) (lc : Nat)
    (nodes : List (VectorId × HnswNode)) (pr : VectorId × List Rat × List VectorId) :
    List (VectorId × HnswNode) :=
  let neighborId := pr.1
  let nodeVector := pr.2.1
  let neighborList := pr.2.2
  let withDistances := neighborList.filterMap (fun nid =>
    (alLookup nid nodes).bind (fun n => n.vector.map (fun v =>
      (nid, calculateDistance config.distance nodeVector v))))
  let pruned := ((sortByKey Prod.snd withDistances).take config.m).map Prod.fst
  updateNode neighborId
    (fun n => if lc < n.neighbors.length then { n with neighbors := n.neighbors.set lc pruned }
      else n) nodes

/-- The node-map part of one layer of the insert wiring: set the new node's
layer-`lc` neighbor list when the node is already stored, add reciprocal
edges, and prune over-full neighbors. -/
def insertAtLayerNodes (config : VectorConfig) (id : VectorId) (lc : Nat)
    (selected : List VectorId) (nodes : List (VectorId × HnswNode)) :
    List (VectorId × HnswNode) :=
  let base :=
    if (alLookup id nodes).isSome then
      updateNode id
        (fun n => if lc < n.neighbors.length then { n with neighbors := n.neighbors.set lc selected }
          else n) nodes
    else nodes
  let acc := selected.foldl (addReverseEdge config id lc) (base, [])
  acc.2.foldl (pruneOne config lc) acc.1

/-- The local-node part of one layer of the insert wiring: when the node is
not yet stored its layer-`lc` neighbor list is set on the local copy. -/
def insertAtLayerNode (lc : Nat) (selected : List VectorId)
    (nodes : List (VectorId × HnswNode)) (id : VectorId) (node : HnswNode) : HnswNode :=
  if (alLookup id nodes).isSome then node
  else if lc < node.neighbors.length then
    { node with neighbors := node.neighbors.set lc selected }
  else node

/-- One layer of the insert wiring: beam-search the layer, select the `M`
best as the new node's neighbors, add reciprocal edges, prune over-full
neighbors, and advance `current`.  The only fallible step is the beam
search at the start, before any mutation. -/
def insertAtLayer (config : VectorConfig) (id : VectorId) (vector : List Rat) (lc : Nat)
    (st : List (VectorId × HnswNode) × HnswNode × VectorId) :
    Except KeraDBError (List (VectorId × HnswNode) × HnswNode × VectorId) :=
  match searchLayer config st.1 vector st.2.2 config.efConstruction lc with
  | .error e => .error e
  | .ok neighbors =>
    .ok (insertAtLayerNodes config id lc ((neighbors.take config.m).map Candidate.id) st.1,
      insertAtLayerNode lc ((neighbors.take config.m).map Candidate.id) st.1 id st.2.1,
      match (neighbors.take config.m).map Candidate.id with
      | [] => st.2.2
      | s :: _ => s)

/-- The per-layer insert loop; on an error the mutations of completed
layers are kept (the source returns early out of a loop that has already
written through the `RwLock`). -/
def insertLoop (config : VectorConfig) (id : VectorId) (vector : List Rat) :
    List Nat → List (VectorId × HnswNode) × HnswNode × VectorId →
    Option KeraDBError × (List (VectorId × HnswNode) × HnswNode × VectorId)
  | [], st => (none, st)
  | lc :: rest, st =>
    match insertAtLayer config id vector lc st with
    | .error e => (some e, st)
    | .ok st2 => insertLoop config id vector rest st2

/-- HnswIndex::insert_with_metadata.  The `layer` argument stands for the
`random_layer()` sample (already clamped to `MAX_LAYERS - 1` by the
callers below); metadata is ignored by the source (`_metadata`).  `next_id`
is fetched-and-incremented before any fallible step, so every branch past
the dimension check returns the incremented counter. -/
def HnswIndex.insertWithLayer (g : HnswIndex) (vector : List Rat)
    (text : Option String) (layer : Nat) : Except KeraDBError VectorId × HnswIndex :=
  if vector.length ≠ g.config.dimensions then
    (.error (.invalidFormat "Vector dimension mismatch"), g)
  else
    match g.entryPoint with
    | none =>
      (.ok g.nextId,
        { g with
            nodes := alInsert g.nextId
              { HnswNode.new g.nextId vector layer with text := text } g.nodes,
            entryPoint := some g.nextId,
            maxLayer := layer,
            nextId := g.nextId + 1 })
    | some entryId =>
      match (List.range' (layer + 1) (g.maxLayer - layer)).reverse.foldlM
          (fun cur lc => searchLayerSingle g.config g.nodes vector cur lc) entryId with
      | .error e => (.error e, { g with nextId := g.nextId + 1 })
      | .ok current0 =>
        match insertLoop g.config g.nextId vector
            (List.range (min layer g.maxLayer + 1)).reverse
            (g.nodes, { HnswNode.new g.nextId vector layer with text := text }, current0) with
        | (some e, st) => (.error e, { g with nodes := st.1, nextId := g.nextId + 1 })
        | (none, st) =>
          if g.maxLayer < layer then
            (.ok g.nextId,
              { g with
                  nodes := alInsert g.nextId st.2.1 st.1
                  maxLayer := layer
                  entryPoint := some g.nextId
                  nextId := g.nextId + 1 })
          else
            (.ok g.nextId,
              { g with
                  nodes := alInsert g.nextId st.2.1 st.1
                  nextId := g.nextId + 1 })

/-- HnswIndex::search. -/
def HnswIndex.search (g : HnswIndex) (query : List Rat) (k : Nat) :
    Except KeraDBError (List (VectorId × Rat)) :=
  if query.length ≠ g.config.dimensions then
    .error (.invalidFormat "Query dimension mismatch")
  else
    match g.entryPoint with
    | none => .ok []
    | some entry =>
      match (List.range' 1 g.maxLayer).reverse.foldlM
          (fun cur lc => searchLayerSingle g.config g.nodes query cur lc) entry with
      | .error e => .error e
      | .ok current =>
        match searchLayer g.config g.nodes query current (max g.config.efSearch k) 0 with
        | .error e => .error e
        | .ok candidates => .ok ((candidates.take k).map (fun c => (c.id, c.distance)))

/-- Edge stripping after a delete, for one node: every adjacency list drops
the removed id (`layer_neighbors.retain(|&n| n != id)`). -/
def stripNode (id : VectorId) (n : HnswNode) : HnswNode :=
  { n with neighbors := n.neighbors.map (fun l => l.filter (fun n2 => n2 ≠ id)) }

/-- Edge stripping after a delete, over the whole node map. -/
def stripEdges (id : VectorId) (nodes : List (VectorId × HnswNode)) :
    List (VectorId × HnswNode) :=
  nodes.map (fun p => (p.1, stripNode id p.2))

/-- HnswIndex::delete: drop the node, strip all inbound edges, and if the
entry point was deleted pick an arbitrary surviving node
(`nodes.keys().next()`, modelled as the head) without touching `max_layer`. -/
def HnswIndex.delete (g : HnswIndex) (id : VectorId) : Bool × HnswIndex :=
  if (alLookup id g.nodes).isSome then
    (true,
      { g with
          nodes := stripEdges id (alErase id g.nodes),
          entryPoint :=
            if g.entryPoint = some id then
              (stripEdges id (alErase id g.nodes)).head?.map Prod.fst
            else g.entryPoint })
  else (false, g)

/-! ### Reachable graph states -/

inductive HnswOp where
  | insertOp (v : List Rat) (layer : Nat)
  | deleteOp (id : VectorId)

def HnswIndex.applyOp (g : HnswIndex) : HnswOp → HnswIndex
  | .insertOp v layer => (g.insertWithLayer v none (min layer (hnswMaxLayers - 1))).2
  | .deleteOp id => (g.delete id).2

def runHnswOps (g : HnswIndex) (ops : List HnswOp) : HnswIndex :=
  ops.foldl HnswIndex.applyOp g

/-! ### Preservation lemmas for the insert machinery (towards C7)

The per-layer wiring of an insert rewrites neighbor lists but never adds or
removes a node and never changes a stored node's layer.  `NodesAgree l l2`
captures this: both maps bind the same keys in the same order, and every
key's node has the same layer. -/

def NodesAgree (l l2 : List (VectorId × HnswNode)) : Prop :=
  l2.map Prod.fst = l.map Prod.fst ∧
  ∀ k, (alLookup k l2).map HnswNode.layer = (alLookup k l).map HnswNode.layer

theorem nodesAgree_refl (l : List (VectorId × HnswNode)) : NodesAgree l l :=
  ⟨rfl, fun _ => rfl⟩

theorem nodesAgree_trans {a b c : List (VectorId × HnswNode)}
    (h1 : NodesAgree a b) (h2 : NodesAgree b c) : NodesAgree a c :=
  ⟨h2.1.trans h1.1, fun k => (h2.2 k).trans (h1.2 k)⟩

theorem nodesAgree_lookup_isSome {l l2 : List (VectorId × HnswNode)}
    (h : NodesAgree l l2) (k : VectorId) :
    (alLookup k l2).isSome = (alLookup k l).isSome := by
  have hm := h.2 k
  cases hl2 : alLookup k l2 <;> cases hl : alLookup k l <;>
    simp [hl2, hl] at hm ⊢

theorem updateNode_cons (id : VectorId) (f : HnswNode → HnswNode) (k2 : VectorId)
    (v2 : HnswNode) (tl : List (VectorId × HnswNode)) :
    updateNode id f ((k2, v2) :: tl) =
      (if k2 = id then (k2, f v2) else (k2, v2)) :: updateNode id f tl := by
  by_cases h : k2 = id <;> simp [updateNode, h]

theorem alLookup_updateNode (id k : VectorId) (f : HnswNode → HnswNode)
    (l : List (VectorId × HnswNode)) :
    alLookup k (updateNode id f l) =
      if k = id then (alLookup k l).map f else alLookup k l := by
  induction l with
  | nil => by_cases h : k = id <;> simp [updateNode, alLookup, h]
  | cons hd tl ih =>
    obtain ⟨k2, v2⟩ := hd
    rw [updateNode_cons]
    by_cases h1 : k2 = id
    · rw [if_pos h1]
      subst h1
      by_cases h2 : k = k2
      · subst h2; simp [alLookup]
      · simp [alLookup, h2, ih]
    · rw [if_neg h1]
      by_cases h2 : k = k2
      · subst h2; simp [alLookup, h1]
      · simp [alLookup, h2, ih]

theorem keys_updateNode (id : VectorId) (f : HnswNode → HnswNode)
    (l : List (VectorId × HnswNode)) :
    (updateNode id f l).map Prod.fst = l.map Prod.fst := by
  induction l with
  | nil => rfl
  | cons hd tl ih =>
    obtain ⟨k2, v2⟩ := hd
    rw [updateNode_cons]
    by_cases h : k2 = id <;> simp [h, ih]

theorem nodesAgree_updateNode (id : VectorId) (f : HnswNode → HnswNode)
    (hf : ∀ n, (f n).layer = n.layer) (l : List (VectorId × HnswNode)) :
    NodesAgree l (updateNode id f l) := by
  refine ⟨keys_updateNode id f l, fun k => ?_⟩
  rw [alLookup_updateNode]
  by_cases h : k = id
  · rw [if_pos h]
    cases alLookup k l with
    | none => rfl
    | some n => simp [hf n]
  · rw [if_neg h]

theorem nodesAgree_addReverseEdge (cfg : VectorConfig) (id : VectorId) (lc : Nat)
    (acc : List (VectorId × HnswNode) × List (VectorId × List Rat × List VectorId))
    (n : VectorId) : NodesAgree acc.1 (addReverseEdge cfg id lc acc n).1 := by
  unfold addReverseEdge
  cases halk : alLookup n acc.1 with
  | none => exact nodesAgree_refl _
  | some neighbor =>
    by_cases h : lc < neighbor.neighbors.length
    · simp only [dif_pos h]
      by_cases hmem : id ∈ neighbor.neighbors.get ⟨lc, h⟩
      · simp only [if_pos hmem]
        exact nodesAgree_refl _
      · simp only [if_neg hmem]
        by_cases hlen : cfg.m * 2 < (neighbor.neighbors.get ⟨lc, h⟩ ++ [id]).length
        · simp only [if_pos hlen]
          cases neighbor.vector <;> (dsimp only; apply nodesAgree_updateNode; intro n2; rfl)
        · simp only [if_neg hlen]
          apply nodesAgree_updateNode
          intro n2
          rfl
    · simp only [dif_neg h]
      exact nodesAgree_refl _

theorem nodesAgree_foldl_addReverseEdge (cfg : VectorConfig) (id : VectorId) (lc : Nat)
    (sel : List VectorId) :
    ∀ acc : List (VectorId × HnswNode) × List (VectorId × List Rat × List VectorId),
      NodesAgree acc.1 (sel.foldl (addReverseEdge cfg id lc) acc).1 := by
  induction sel with
  | nil => intro acc; exact nodesAgree_refl _
  | cons n rest ih =>
    intro acc
    exact nodesAgree_trans (nodesAgree_addReverseEdge cfg id lc acc n) (ih _)

theorem nodesAgree_pruneOne (cfg : VectorConfig) (lc : Nat)
    (nodes : List (VectorId × HnswNode)) (pr : VectorId × List Rat × List VectorId) :
    NodesAgree nodes (pruneOne cfg lc nodes pr) := by
  unfold pruneOne
  exact nodesAgree_updateNode _ _
    (fun n => by by_cases h : lc < n.neighbors.length <;> simp [h]) _

theorem nodesAgree_foldl_pruneOne (cfg : VectorConfig) (lc : Nat)
    (prs : List (VectorId × List Rat × List VectorId)) :
    ∀ nodes, NodesAgree nodes (prs.foldl (pruneOne cfg lc) nodes) := by
  induction prs with
  | nil => intro nodes; exact nodesAgree_refl _
  | cons pr rest ih =>
    intro nodes
    exact nodesAgree_trans (nodesAgree_pruneOne cfg lc nodes pr) (ih _)

theorem nodesAgree_insertAtLayerNodes (cfg : VectorConfig) (id : VectorId) (lc : Nat)
    (selected : List VectorId) (nodes : List (VectorId × HnswNode)) :
    NodesAgree nodes (insertAtLayerNodes cfg id lc selected nodes) := by
  have hbase : NodesAgree nodes
      (if (alLookup id nodes).isSome then
        updateNode id
          (fun n => if lc < n.neighbors.length then
              { n with neighbors := n.neighbors.set lc selected }
            else n) nodes
      else nodes) := by
    by_cases h : (alLookup id nodes).isSome
    · rw [if_pos h]
      exact nodesAgree_updateNode _ _
        (fun n => by by_cases h2 : lc < n.neighbors.length <;> simp [h2]) _
    · rw [if_neg h]
      exact nodesAgree_refl _
  exact nodesAgree_trans hbase (nodesAgree_trans
    (nodesAgree_foldl_addReverseEdge cfg id lc selected (_, []))
    (nodesAgree_foldl_pruneOne cfg lc _ _))

theorem insertAtLayerNode_layer (lc : Nat) (selected : List VectorId)
    (nodes : List (VectorId × HnswNode)) (id : VectorId) (node : HnswNode) :
    (insertAtLayerNode lc selected nodes id node).layer = node.layer := by
  unfold insertAtLayerNode
  by_cases h1 : (alLookup id nodes).isSome
  · rw [if_pos h1]
  · rw [if_neg h1]
    by_cases h2 : lc < node.neighbors.length
    · rw [if_pos h2]
    · rw [if_neg h2]

theorem insertAtLayer_ok (cfg : VectorConfig) (id : VectorId) (vector : List Rat)
    (lc : Nat) (st st2 : List (VectorId × HnswNode) × HnswNode × VectorId)
    (h : insertAtLayer cfg id vector lc st = .ok st2) :
    NodesAgree st.1 st2.1 ∧ st2.2.1.layer = st.2.1.layer := by
  unfold insertAtLayer at h
  cases hs : searchLayer cfg st.1 vector st.2.2 cfg.efConstruction lc with
  | error e => rw [hs] at h; cases h
  | ok neighbors =>
    rw [hs] at h
    cases h
    exact ⟨nodesAgree_insertAtLayerNodes cfg id lc _ st.1,
      insertAtLayerNode_layer lc _ st.1 id st.2.1⟩

theorem insertLoop_agree (cfg : VectorConfig) (id : VectorId) (vector : List Rat) :
    ∀ (layers : List Nat) (st : List (VectorId × HnswNode) × HnswNode × VectorId),
      NodesAgree st.1 (insertLoop cfg id vector layers st).2.1 ∧
      (insertLoop cfg id vector layers st).2.2.1.layer = st.2.1.layer := by
  intro layers
  induction layers with
  | nil => intro st; exact ⟨nodesAgree_refl _, rfl⟩
  | cons lc rest ih =>
    intro st
    unfold insertLoop
    cases hs : insertAtLayer cfg id vector lc st with
    | error e => exact ⟨nodesAgree_refl _, rfl⟩
    | ok st2 =>
      have h1 := insertAtLayer_ok cfg id vector lc st st2 hs
      have h2 := ih st2
      exact ⟨nodesAgree_trans h1.1 h2.1, h2.2.trans h1.2⟩

/-! ### Graph invariants (C7) -/

theorem mem_keys_alInsert {κ α : Type} [DecidableEq κ] {k k2 : κ} {v : α}
    {xs : List (κ × α)} (h : k ∈ (alInsert k2 v xs).map Prod.fst) :
    k = k2 ∨ k ∈ xs.map Prod.fst := by
  rcases List.mem_map.mp h with ⟨p, hp, rfl⟩
  rcases mem_alInsert hp with h2 | h2
  · exact Or.inl (by rw [h2])
  · exact Or.inr (List.mem_map.mpr ⟨p, h2, rfl⟩)

theorem alLookup_alErase_ne {κ α : Type} [DecidableEq κ] {k k2 : κ}
    (h : k ≠ k2) (xs : List (κ × α)) :
    alLookup k (alErase k2 xs) = alLookup k xs := by
  induction xs with
  | nil => rfl
  | cons hd tl ih =>
    obtain ⟨k3, v3⟩ := hd
    by_cases h1 : k2 = k3
    · subst h1
      simp [alErase, alLookup, h]
    · by_cases h2 : k = k3 <;> simp [alErase, alLookup, h1, h2, ih]

theorem alLookup_stripEdges (id k : VectorId) (l : List (VectorId × HnswNode)) :
    alLookup k (stripEdges id l) = (alLookup k l).map (stripNode id) := by
  induction l with
  | nil => rfl
  | cons hd tl ih =>
    obtain ⟨k2, v2⟩ := hd
    by_cases h : k = k2
    · simp [stripEdges, alLookup, h]
    · simp only [stripEdges, List.map_cons, alLookup, if_neg h]
      exact ih

theorem keys_stripEdges (id : VectorId) (l : List (VectorId × HnswNode)) :
    (stripEdges id l).map Prod.fst = l.map Prod.fst := by
  induction l with
  | nil => rfl
  | cons hd tl ih =>
    simp only [stripEdges, List.map_cons, List.map_map] at ih ⊢
    simp [ih]

theorem mem_keys_alErase {κ α : Type} [DecidableEq κ] {k k2 : κ}
    {xs : List (κ × α)} (h : k ∈ (alErase k2 xs).map Prod.fst) :
    k ∈ xs.map Prod.fst := by
  rcases List.mem_map.mp h with ⟨p, hp, rfl⟩
  exact List.mem_map.mpr ⟨p, (alErase_sublist k2 xs).subset hp, rfl⟩

theorem alLookup_head (hd : VectorId × HnswNode) (tl : List (VectorId × HnswNode)) :
    alLookup hd.1 (hd :: tl) = some hd.2 := by
  obtain ⟨k, v⟩ := hd
  simp [alLookup]

theorem alLookup_mem_keys {κ α : Type} [DecidableEq κ] {k : κ} {xs : List (κ × α)}
    (h : (alLookup k xs).isSome = true) : k ∈ xs.map Prod.fst := by
  cases h2 : alLookup k xs with
  | none => rw [h2] at h; cases h
  | some v => exact List.mem_map.mpr ⟨(k, v), alLookup_some_mem h2, rfl⟩

/-- Structural well-formedness of a graph state: every stored id is below
`next_id`, a set entry point is stored, and an unset entry point means the
graph is empty. -/
def HnswWF (g : HnswIndex) : Prop :=
  (∀ k ∈ g.nodes.map Prod.fst, k < g.nextId) ∧
  (∀ e, g.entryPoint = some e → (alLookup e g.nodes).isSome = true) ∧
  (g.entryPoint = none → g.nodes = [])

/-- The claimed entry-point/layer invariant: the entry point's node layer
equals `max_layer`. -/
def EntryMax (g : HnswIndex) : Prop :=
  ∀ e, g.entryPoint = some e →
    (alLookup e g.nodes).map HnswNode.layer = some g.maxLayer

theorem hnswWF_new (cfg : VectorConfig) : HnswWF (HnswIndex.new cfg) :=
  ⟨fun k hk => absurd hk (by simp [HnswIndex.new]),
   fun e he => by simp [HnswIndex.new] at he,
   fun _ => rfl⟩

theorem entryMax_new (cfg : VectorConfig) : EntryMax (HnswIndex.new cfg) :=
  fun e he => by simp [HnswIndex.new] at he

theorem hnswWF_insert (g : HnswIndex) (v : List Rat) (text : Option String)
    (layer : Nat) (hwf : HnswWF g) : HnswWF (g.insertWithLayer v text layer).2 := by
  obtain ⟨hkeys, hent, hnil⟩ := hwf
  unfold HnswIndex.insertWithLayer
  by_cases hdim : v.length ≠ g.config.dimensions
  · rw [if_pos hdim]
    exact ⟨hkeys, hent, hnil⟩
  · rw [if_neg hdim]
    cases hE : g.entryPoint with
    | none =>
      dsimp only
      refine ⟨fun k hk => ?_, fun e he => ?_, fun he => ?_⟩
      · rcases mem_keys_alInsert hk with rfl | hk2
        · exact Nat.lt_succ_self g.nextId
        · exact Nat.lt_succ_of_lt (hkeys k hk2)
      · cases he
        simp [alLookup_alInsert_self]
      · exact absurd he (by simp)
    | some entryId =>
      dsimp only
      cases hD : (List.range' (layer + 1) (g.maxLayer - layer)).reverse.foldlM
          (fun cur lc => searchLayerSingle g.config g.nodes v cur lc) entryId with
      | error e =>
        dsimp only
        refine ⟨fun k hk => Nat.lt_succ_of_lt (hkeys k hk), fun e2 he2 => ?_, fun he2 => ?_⟩
        · cases he2
          exact hent entryId hE
        · cases he2
      | ok current0 =>
        dsimp only
        cases hL : insertLoop g.config g.nextId v
            (List.range (min layer g.maxLayer + 1)).reverse
            (g.nodes, { HnswNode.new g.nextId v layer with text := text }, current0) with
        | mk err st =>
          have hagree : NodesAgree g.nodes st.1 := by
            have h2 := (insertLoop_agree g.config g.nextId v
              (List.range (min layer g.maxLayer + 1)).reverse
              (g.nodes, { HnswNode.new g.nextId v layer with text := text }, current0)).1
            rw [hL] at h2
            exact h2
          cases err with
          | some e =>
            dsimp only
            refine ⟨fun k hk => ?_, fun e2 he2 => ?_, fun he2 => ?_⟩
            · rw [hagree.1] at hk
              exact Nat.lt_succ_of_lt (hkeys k hk)
            · cases he2
              rw [nodesAgree_lookup_isSome hagree]
              exact hent entryId hE
            · cases he2
          | none =>
            dsimp only
            by_cases hml : g.maxLayer < layer
            · rw [if_pos hml]
              refine ⟨fun k hk => ?_, fun e2 he2 => ?_, fun he2 => ?_⟩
              · rcases mem_keys_alInsert hk with rfl | hk2
                · exact Nat.lt_succ_self g.nextId
                · rw [hagree.1] at hk2
                  exact Nat.lt_succ_of_lt (hkeys k hk2)
              · cases he2
                simp [alLookup_alInsert_self]
              · exact absurd he2 (by simp)
            · rw [if_neg hml]
              refine ⟨fun k hk => ?_, fun e2 he2 => ?_, fun he2 => ?_⟩
              · rcases mem_keys_alInsert hk with rfl | hk2
                · exact Nat.lt_succ_self g.nextId
                · rw [hagree.1] at hk2
                  exact Nat.lt_succ_of_lt (hkeys k hk2)
              · cases he2
                have hlt : entryId < g.nextId :=
                  hkeys entryId (alLookup_mem_keys (hent entryId hE))
                rw [alLookup_alInsert_ne _ _ (Nat.ne_of_lt hlt),
                  nodesAgree_lookup_isSome hagree]
                exact hent entryId hE
              · cases he2

theorem entryMax_insert (g : HnswIndex) (v : List Rat) (text : Option String)
    (layer : Nat) (hwf : HnswWF g) (hem : EntryMax g) :
    EntryMax (g.insertWithLayer v text layer).2 := by
  obtain ⟨hkeys, hent, hnil⟩ := hwf
  unfold HnswIndex.insertWithLayer
  by_cases hdim : v.length ≠ g.config.dimensions
  · rw [if_pos hdim]
    exact hem
  · rw [if_neg hdim]
    cases hE : g.entryPoint with
    | none =>
      dsimp only
      intro e he
      cases he
      simp [alLookup_alInsert_self, HnswNode.new]
    | some entryId =>
      dsimp only
      cases hD : (List.range' (layer + 1) (g.maxLayer - layer)).reverse.foldlM
          (fun cur lc => searchLayerSingle g.config g.nodes v cur lc) entryId with
      | error e =>
        dsimp only
        intro e2 he2
        cases he2
        exact hem entryId hE
      | ok current0 =>
        dsimp only
        cases hL : insertLoop g.config g.nextId v
            (List.range (min layer g.maxLayer + 1)).reverse
            (g.nodes, { HnswNode.new g.nextId v layer with text := text }, current0) with
        | mk err st =>
          have hloop := insertLoop_agree g.config g.nextId v
            (List.range (min layer g.maxLayer + 1)).reverse
            (g.nodes, { HnswNode.new g.nextId v layer with text := text }, current0)
          rw [hL] at hloop
          have hagree : NodesAgree g.nodes st.1 := hloop.1
          have hlayer : st.2.1.layer = layer := hloop.2
          cases err with
          | some e =>
            dsimp only
            intro e2 he2
            cases he2
            rw [(hagree.2 entryId : _)]
            exact hem entryId hE
          | none =>
            dsimp only
            by_cases hml : g.maxLayer < layer
            · rw [if_pos hml]
              intro e2 he2
              cases he2
              simp [alLookup_alInsert_self, hlayer]
            · rw [if_neg hml]
              intro e2 he2
              cases he2
              have hlt : entryId < g.nextId :=
                hkeys entryId (alLookup_mem_keys (hent entryId hE))
              rw [alLookup_alInsert_ne _ _ (Nat.ne_of_lt hlt), (hagree.2 entryId : _)]
              exact hem entryId hE

theorem hnswWF_delete (g : HnswIndex) (id : VectorId) (hwf : HnswWF g) :
    HnswWF (g.delete id).2 := by
  obtain ⟨hkeys, hent, hnil⟩ := hwf
  unfold HnswIndex.delete
  by_cases hP : (alLookup id g.nodes).isSome
  · rw [if_pos hP]
    refine ⟨fun k hk => ?_, fun e2 he2 => ?_, fun he2 => ?_⟩
    · rw [keys_stripEdges] at hk
      exact hkeys k (mem_keys_alErase hk)
    · have he3 : (if g.entryPoint = some id then
          (stripEdges id (alErase id g.nodes)).head?.map Prod.fst
        else g.entryPoint) = some e2 := he2
      by_cases hid : g.entryPoint = some id
      · rw [if_pos hid] at he3
        cases hh : (stripEdges id (alErase id g.nodes)).head? with
        | none => rw [hh] at he3; cases he3
        | some hd =>
          rw [hh] at he3
          have he4 : hd.1 = e2 := by simpa using he3
          rcases List.head?_eq_some_iff.mp hh with ⟨tl, htl⟩
          rw [htl, ← he4, alLookup_head]
          rfl
      · rw [if_neg hid] at he3
        have hne : e2 ≠ id := by
          intro hcon
          rw [hcon] at he3
          exact hid he3
        rw [alLookup_stripEdges, alLookup_alErase_ne hne]
        have := hent e2 he3
        cases h4 : alLookup e2 g.nodes with
        | none => rw [h4] at this; cases this
        | some n => rfl
    · have he3 : (if g.entryPoint = some id then
          (stripEdges id (alErase id g.nodes)).head?.map Prod.fst
        else g.entryPoint) = none := he2
      by_cases hid : g.entryPoint = some id
      · rw [if_pos hid] at he3
        cases hh : (stripEdges id (alErase id g.nodes)).head? with
        | none => exact List.head?_eq_none_iff.mp hh
        | some hd => rw [hh] at he3; cases he3
      · rw [if_neg hid] at he3
        have hempty := hnil he3
        rw [hempty] at hP
        cases hP
  · rw [if_neg hP]
    exact ⟨hkeys, hent, hnil⟩

theorem hnswWF_applyOp (g : HnswIndex) (op : HnswOp) (h : HnswWF g) :
    HnswWF (g.applyOp op) := by
  cases op with
  | insertOp v layer => exact hnswWF_insert g v none _ h
  | deleteOp id => exact hnswWF_delete g id h

theorem hnswWF_runOps (ops : List HnswOp) :
    ∀ g, HnswWF g → HnswWF (runHnswOps g ops) := by
  induction ops with
  | nil => intro g hg; exact hg
  | cons op rest ih =>
    intro g hg
    exact ih _ (hnswWF_applyOp g op hg)

theorem entryMax_runOps (ops : List HnswOp)
    (hins : ∀ op ∈ ops, ∀ i, op ≠ HnswOp.deleteOp i) :
    ∀ g, HnswWF g → EntryMax g →
      HnswWF (runHnswOps g ops) ∧ EntryMax (runHnswOps g ops) := by
  induction ops with
  | nil => intro g hg he; exact ⟨hg, he⟩
  | cons op rest ih =>
    intro g hg he
    have hop : ∀ i, op ≠ HnswOp.deleteOp i := fun i => hins op (List.mem_cons_self op rest) i
    have hrest : ∀ op2 ∈ rest, ∀ i, op2 ≠ HnswOp.deleteOp i :=
      fun op2 h2 i => hins op2 (List.mem_cons_of_mem op h2) i
    cases op with
    | insertOp v layer =>
      exact ih hrest _ (hnswWF_insert g v none _ hg) (entryMax_insert g v none _ hg he)
    | deleteOp i => exact absurd rfl (hop i)

/-! ### C7: entry point vs max_layer -/

/-- Default-shaped compression config for the vector configs below; the
HNSW functions never read this field. -/
def hnswCompression : CompressionConfig := ⟨.delta, 1 / 1000, 15 / 100, 8, 8⟩

def c7Cfg : VectorConfig :=
  ⟨1, .manhattan, 2, 4, 4, false, none, hnswCompression⟩

def c7Ops : List HnswOp :=
  [.insertOp [1] 1, .insertOp [2] 0, .deleteOp 0]

/-- C7, counterexample: the claim says the entry point's node layer always
equals `max_layer`.  Insert a node at layer 1 (it becomes the entry point
and `max_layer` becomes 1), insert a second node at layer 0, then delete
the entry point: `delete` promotes an arbitrary surviving node
(`nodes.keys().next()`) to entry point without recomputing `max_layer`, so
the new entry point is the layer-0 node while `max_layer` is still 1. -/
theorem c7_counterexample :
    (runHnswOps (HnswIndex.new c7Cfg) c7Ops).entryPoint = some 1 ∧
    (alLookup 1 (runHnswOps (HnswIndex.new c7Cfg) c7Ops).nodes).map HnswNode.layer =
      some 0 ∧
    (runHnswOps (HnswIndex.new c7Cfg) c7Ops).maxLayer = 1 := by
  refine ⟨?_, ?_, ?_⟩ <;> with_unfolding_all decide

/-- C7, amended: in every non-empty reachable graph state there is exactly
one entry point (the `entry_point` field holds a single id) and it is a
stored node; if moreover no delete occurs in the history, the entry
point's layer equals the graph's `max_layer`.  (After a delete the layer
equality can fail, as the counterexample shows.) -/
theorem c7_entry_point_stored (cfg : VectorConfig) (ops : List HnswOp)
    (h : (runHnswOps (HnswIndex.new cfg) ops).nodes ≠ []) :
    (∃ e, (runHnswOps (HnswIndex.new cfg) ops).entryPoint = some e ∧
      (alLookup e (runHnswOps (HnswIndex.new cfg) ops).nodes).isSome = true) ∧
    ((∀ op ∈ ops, ∀ i, op ≠ HnswOp.deleteOp i) →
      ∃ e, (runHnswOps (HnswIndex.new cfg) ops).entryPoint = some e ∧
        (alLookup e (runHnswOps (HnswIndex.new cfg) ops).nodes).map HnswNode.layer =
          some (runHnswOps (HnswIndex.new cfg) ops).maxLayer) := by
  have hwf := hnswWF_runOps ops (HnswIndex.new cfg) (hnswWF_new cfg)
  constructor
  · cases hent : (runHnswOps (HnswIndex.new cfg) ops).entryPoint with
    | none => exact absurd (hwf.2.2 hent) h
    | some e => exact ⟨e, rfl, hwf.2.1 e hent⟩
  · intro hins
    have hboth := entryMax_runOps ops hins (HnswIndex.new cfg) (hnswWF_new cfg)
      (entryMax_new cfg)
    cases hent : (runHnswOps (HnswIndex.new cfg) ops).entryPoint with
    | none => exact absurd (hboth.1.2.2 hent) h
    | some e => exact ⟨e, rfl, hboth.2 e hent⟩

theorem c7_entry_point_stored_witness :
    (runHnswOps (HnswIndex.new c7Cfg) [HnswOp.insertOp [1] 0]).nodes ≠ [] ∧
    ((∃ e, (runHnswOps (HnswIndex.new c7Cfg) [HnswOp.insertOp [1] 0]).entryPoint = some e ∧
      (alLookup e (runHnswOps (HnswIndex.new c7Cfg) [HnswOp.insertOp [1] 0]).nodes).isSome =
        true) ∧
    ((∀ op ∈ [HnswOp.insertOp [1] 0], ∀ i, op ≠ HnswOp.deleteOp i) →
      ∃ e, (runHnswOps (HnswIndex.new c7Cfg) [HnswOp.insertOp [1] 0]).entryPoint = some e ∧
        (alLookup e
            (runHnswOps (HnswIndex.new c7Cfg) [HnswOp.insertOp [1] 0]).nodes).map
            HnswNode.layer =
          some (runHnswOps (HnswIndex.new c7Cfg) [HnswOp.insertOp [1] 0]).maxLayer)) :=
  ⟨by with_unfolding_all decide,
    c7_entry_point_stored c7Cfg [HnswOp.insertOp [1] 0] (by with_unfolding_all decide)⟩

/-! ### C8: search result ordering -/

/-- The ordering the spec claims for search results: ascending distance,
ties broken by ascending id. -/
def C8Ordered (l : List (VectorId × Rat)) : Prop :=
  l.Pairwise (fun a b => a.2 < b.2 ∨ (a.2 = b.2 ∧ a.1 < b.1))

def c8Cfg : VectorConfig :=
  ⟨1, .manhattan, 2, 4, 4, false, none, hnswCompression⟩

def c8Ops : List HnswOp :=
  [.insertOp [1] 0, .insertOp [-1] 1]

/-- C8, counterexample: node 0 stores `[1]`, node 1 stores `[-1]` at layer 1
and becomes the entry point.  Searching `[0]` gives both nodes Manhattan
distance 1; the result heap's array order is `[1, 0]` (the entry point was
pushed first) and `sort_by` compares distances only and is stable, so the
output is `[(1, 1), (0, 1)]` — equal distances with ids descending, against
the claimed id tie-break. -/
theorem c8_counterexample :
    HnswIndex.search (runHnswOps (HnswIndex.new c8Cfg) c8Ops) [0] 2 =
      .ok [(1, 1), (0, 1)] ∧
    ¬ C8Ordered [(1, 1), (0, 1)] := by
  constructor
  · with_unfolding_all rfl
  · unfold C8Ordered
    with_unfolding_all decide

theorem mem_insertSortedKey {α : Type} (key : α → Rat) (x b : α) (l : List α)
    (hb : b ∈ insertSortedKey key x l) : b = x ∨ b ∈ l := by
  induction l with
  | nil => simpa [insertSortedKey] using hb
  | cons y ys ih =>
    rw [insertSortedKey] at hb
    by_cases hxy : key x ≤ key y
    · rw [if_pos hxy] at hb
      rcases List.mem_cons.mp hb with rfl | hb2
      · exact Or.inl rfl
      · exact Or.inr hb2
    · rw [if_neg hxy] at hb
      rcases List.mem_cons.mp hb with rfl | hb2
      · exact Or.inr (List.mem_cons_self b ys)
      · rcases ih hb2 with rfl | hb3
        · exact Or.inl rfl
        · exact Or.inr (List.mem_cons_of_mem y hb3)

theorem insertSortedKey_pairwise {α : Type} (key : α → Rat) (x : α) (l : List α)
    (h : l.Pairwise (fun a b => key a ≤ key b)) :
    (insertSortedKey key x l).Pairwise (fun a b => key a ≤ key b) := by
  induction l with
  | nil => simp [insertSortedKey]
  | cons y ys ih =>
    rw [List.pairwise_cons] at h
    rw [insertSortedKey]
    by_cases hxy : key x ≤ key y
    · rw [if_pos hxy]
      refine List.Pairwise.cons (fun b hb => ?_) (List.Pairwise.cons h.1 h.2)
      rcases List.mem_cons.mp hb with rfl | hb2
      · exact hxy
      · exact le_trans hxy (h.1 b hb2)
    · rw [if_neg hxy]
      refine List.Pairwise.cons (fun b hb => ?_) (ih h.2)
      rcases mem_insertSortedKey key x b ys hb with rfl | hb2
      · exact le_of_lt (lt_of_not_le hxy)
      · exact h.1 b hb2

theorem sortByKey_pairwise {α : Type} (key : α → Rat) (l : List α) :
    (sortByKey key l).Pairwise (fun a b => key a ≤ key b) := by
  induction l with
  | nil => simp [sortByKey]
  | cons x xs ih =>
    rw [sortByKey]
    exact insertSortedKey_pairwise key x _ ih

theorem searchLayer_sorted (cfg : VectorConfig) (nodes : List (VectorId × HnswNode))
    (q : List Rat) (e : VectorId) (ef lc : Nat) (l : List Candidate)
    (h : searchLayer cfg nodes q e ef lc = .ok l) :
    l.Pairwise (fun a b => a.distance ≤ b.distance) := by
  unfold searchLayer at h
  split at h
  · cases h
  · split at h
    · cases h
    · cases h
      exact sortByKey_pairwise Candidate.distance _

/-- C8, amended: every successful `search` returns its results in
nondecreasing order of distance.  (No id tie-break is applied: results at
equal distance come out in the result heap's array order, and the
counterexample above shows descending ids at a tie.) -/
theorem c8_search_sorted (g : HnswIndex) (q : List Rat) (k : Nat)
    (l : List (VectorId × Rat)) (h : g.search q k = .ok l) :
    l.Pairwise (fun a b => a.2 ≤ b.2) := by
  unfold HnswIndex.search at h
  split at h
  · cases h
  · split at h
    · cases h
      exact List.Pairwise.nil
    · split at h
      · cases h
      · rename_i cands hcands
        split at h
        · cases h
        · rename_i res hres
          cases h
          have hp := searchLayer_sorted _ _ _ _ _ _ _ hres
          have hp2 : (res.take k).Pairwise (fun a b => a.distance ≤ b.distance) :=
            List.Pairwise.sublist (List.take_sublist k res) hp
          exact List.pairwise_map.mpr hp2

theorem c8_search_sorted_witness :
    HnswIndex.search (runHnswOps (HnswIndex.new c8Cfg) c8Ops) [0] 2 =
      .ok [(1, 1), (0, 1)] ∧
    ([((1 : VectorId), (1 : Rat)), (0, 1)]).Pairwise (fun a b => a.2 ≤ b.2) :=
  ⟨by with_unfolding_all rfl,
    c8_search_sorted (runHnswOps (HnswIndex.new c8Cfg) c8Ops) [0] 2 [(1, 1), (0, 1)]
      (by with_unfolding_all rfl)⟩

/-! ## Metadata filters and filtered search (`src/vector/types.rs`,
`src/vector/search.rs`) — C9

`serde_json::Value` equality is structural; on the `Json` model numbers are
a single `Rat` constructor, so numerically equal numbers that serde would
keep in distinct integer/float representations are identified.  Rust's
`String` ordering is byte-lexicographic on UTF-8, which coincides with the
code-point order of `strLt`. -/

/-- `Value::get(field)`: objects look the field up, everything else is
`None`. -/
def Json.getField (j : Json) (field : String) : Option Json :=
  match j with
  | .obj fields => objLookup field fields
  | _ => none

mutual

/-- Structural equality of JSON values (`PartialEq` on `Value`). -/
def Json.beq : Json → Json → Bool
  | .null, .null => true
  | .bool a, .bool b => a == b
  | .num a, .num b => a == b
  | .str a, .str b => a == b
  | .arr a, .arr b => Json.beqList a b
  | .obj a, .obj b => Json.beqFields a b
  | _, _ => false

def Json.beqList : List Json → List Json → Bool
  | [], [] => true
  | a :: as2, b :: bs => Json.beq a b && Json.beqList as2 bs
  | _, _ => false

def Json.beqFields : List (String × Json) → List (String × Json) → Bool
  | [], [] => true
  | (k1, v1) :: as2, (k2, v2) :: bs => k1 == k2 && Json.beq v1 v2 && Json.beqFields as2 bs
  | _, _ => false

end

/-- `values.contains(actual)` on a `Vec<Value>`. -/
def jsonElem (x : Json) : List Json → Bool
  | [] => false
  | y :: ys => Json.beq y x || jsonElem x ys

/-- compare_values: numbers compare as reals (the source goes through
`as_f64`), strings lexicographically, everything else is incomparable. -/
def compareValues (a b : Json) : Option Ordering :=
  match a, b with
  | .num x, .num y => some (ratCompare x y)
  | .str x, .str y =>
    some (if strLt x y then Ordering.lt else if strLt y x then Ordering.gt else Ordering.eq)
  | _, _ => none

/-- `needle` is a prefix of the second list (`str::starts_with`). -/
def charsPre : List Char → List Char → Bool
  | [], _ => true
  | _ :: _, [] => false
  | a :: as2, b :: bs => a == b && charsPre as2 bs

/-- `needle` occurs as a contiguous subsequence (`str::contains`). -/
def charsSub (needle : List Char) : List Char → Bool
  | [] => needle.isEmpty
  | c :: rest => charsPre needle (c :: rest) || charsSub needle rest

def strContains (s sub : String) : Bool := charsSub sub.data s.data

def strStarts (s p : String) : Bool := charsPre p.data s.data

def strEnds (s p : String) : Bool := charsPre p.data.reverse s.data.reverse

/-- FilterCondition (`In` is `inList`: `in` is reserved in Lean). -/
inductive FilterCondition where
  | eq (v : Json)
  | ne (v : Json)
  | gt (v : Json)
  | gte (v : Json)
  | lt (v : Json)
  | lte (v : Json)
  | inList (vs : List Json)
  | notIn (vs : List Json)
  | contains (s : String)
  | startsWith (s : String)
  | endsWith (s : String)

/-- FilterCondition::matches. -/
def FilterCondition.matches (c : FilterCondition) (value : Option Json) : Bool :=
  match c, value with
  | .eq expected, some actual => Json.beq expected actual
  | .ne expected, some actual => !(Json.beq expected actual)
  | .gt expected, some actual => compareValues actual expected == some Ordering.gt
  | .gte expected, some actual =>
    match compareValues actual expected with
    | some Ordering.gt => true
    | some Ordering.eq => true
    | _ => false
  | .lt expected, some actual => compareValues actual expected == some Ordering.lt
  | .lte expected, some actual =>
    match compareValues actual expected with
    | some Ordering.lt => true
    | some Ordering.eq => true
    | _ => false
  | .inList values, some actual => jsonElem actual values
  | .notIn values, some actual => !(jsonElem actual values)
  | .contains substr, some (Json.str s) => strContains s substr
  | .startsWith p, some (Json.str s) => strStarts s p
  | .endsWith suffix2, some (Json.str s) => strEnds s suffix2
  | _, _ => false

/-- MetadataFilter: the `HashMap<String, FilterCondition>` becomes an
association list. -/
structure MetadataFilter where
  filters : List (String × FilterCondition)

/-- MetadataFilter::matches: every condition must hold on the looked-up
field. -/
def MetadataFilter.matches (f : MetadataFilter) (metadata : Json) : Bool :=
  f.filters.all (fun p => p.2.matches (metadata.getField p.1))

/-- VectorDocument (`src/vector/types.rs`). -/
structure VectorDocument where
  id : VectorId
  embedding : Option (List Rat)
  text : Option String
  metadata : Json

/-- VectorSearchResult. -/
structure VectorSearchResult where
  document : VectorDocument
  score : Rat
  rank : Nat

/-- HnswIndex::get: builds a document with `Null` metadata. -/
def HnswIndex.get (g : HnswIndex) (id : VectorId) : Option VectorDocument :=
  (alLookup id g.nodes).map (fun node =>
    ⟨node.id, node.vector, node.text, Json.null⟩)

/-- VectorCollection (embedding provider omitted: `search_filtered` never
touches it). -/
structure VectorCollection where
  name : String
  config : VectorConfig
  index : HnswIndex
  metadata : List (VectorId × Json)

/-- VectorCollection::build_search_results. -/
def VectorCollection.buildSearchResults (c : VectorCollection)
    (results : List (VectorId × Rat)) : Except KeraDBError (List VectorSearchResult) :=
  .ok (results.enum.filterMap (fun p =>
    (c.index.get p.2.1).map (fun doc =>
      VectorSearchResult.mk
        (match alLookup p.2.1 c.metadata with
          | some meta => { doc with metadata := meta }
          | none => doc)
        p.2.2 p.1)))

/-- VectorCollection::search_filtered: over-fetch `10·k`, keep results
whose metadata matches the filter (absent metadata is kept), truncate to
`k`, and assemble the result records. -/
def VectorCollection.searchFiltered (c : VectorCollection) (query : List Rat) (k : Nat)
    (filter : MetadataFilter) : Except KeraDBError (List VectorSearchResult) :=
  match c.index.search query (k * 10) with
  | .error e => .error e
  | .ok results =>
    c.buildSearchResults
      ((results.filter (fun p =>
        match alLookup p.1 c.metadata with
        | some m => filter.matches m
        | none => true)).take k)

/-! ### C9: filtered search soundness -/

theorem get_metadata_null {g : HnswIndex} {id : VectorId} {doc : VectorDocument}
    (h : g.get id = some doc) : doc.metadata = Json.null := by
  unfold HnswIndex.get at h
  cases h2 : alLookup id g.nodes with
  | none => rw [h2] at h; cases h
  | some node =>
    rw [h2] at h
    cases h
    rfl

theorem snd_mem_of_mem_enumFrom {α : Type} {p : Nat × α} :
    ∀ {n : Nat} {l : List α}, p ∈ l.enumFrom n → p.2 ∈ l := by
  intro n l
  induction l generalizing n with
  | nil => intro h; cases h
  | cons x xs ih =>
    intro h
    rw [List.enumFrom] at h
    rcases List.mem_cons.mp h with rfl | h2
    · exact List.mem_cons_self _ _
    · exact List.mem_cons_of_mem _ (ih h2)

theorem buildSearchResults_metadata (c : VectorCollection) (lst : List (VectorId × Rat))
    (out : List VectorSearchResult) (h : c.buildSearchResults lst = .ok out) :
    out.length ≤ lst.length ∧
    ∀ r ∈ out, ∃ id, id ∈ lst.map Prod.fst ∧
      ((alLookup id c.metadata = none ∧ r.document.metadata = Json.null) ∨
       (∃ m, alLookup id c.metadata = some m ∧ r.document.metadata = m)) := by
  unfold VectorCollection.buildSearchResults at h
  cases h
  constructor
  · refine le_trans (List.length_filterMap_le _ _) ?_
    rw [List.enum_length]
  · intro r hr
    simp only [List.mem_filterMap] at hr
    rcases hr with ⟨p, hp, hfp⟩
    rcases Option.map_eq_some'.mp hfp with ⟨doc, hg, hmk⟩
    refine ⟨p.2.1, List.mem_map.mpr ⟨p.2, snd_mem_of_mem_enumFrom hp, rfl⟩, ?_⟩
    cases hm : alLookup p.2.1 c.metadata with
    | none =>
      left
      refine ⟨rfl, ?_⟩
      rw [hm] at hmk
      cases hmk
      exact get_metadata_null hg
    | some m =>
      right
      refine ⟨m, rfl, ?_⟩
      rw [hm] at hmk
      cases hmk
      rfl

/-- C9: every record returned by `search_filtered` either carries no
metadata at all (the model's `Null`, serde's default) or carries metadata
matching the filter, and at most `k` records are returned. -/
theorem c9_filtered_search_sound (c : VectorCollection) (query : List Rat) (k : Nat)
    (F : MetadataFilter) (out : List VectorSearchResult)
    (h : c.searchFiltered query k F = .ok out) :
    out.length ≤ k ∧
    ∀ r ∈ out, r.document.metadata = Json.null ∨
      F.matches r.document.metadata = true := by
  unfold VectorCollection.searchFiltered at h
  split at h
  · cases h
  · rename_i results hres
    have hb := buildSearchResults_metadata c _ out h
    constructor
    · refine le_trans hb.1 ?_
      rw [List.length_take]
      exact min_le_left _ _
    · intro r hr
      rcases hb.2 r hr with ⟨id, hid, hcase⟩
      rcases List.mem_map.mp hid with ⟨p, hp, rfl⟩
      have hp2 : p ∈ results.filter (fun p =>
          match alLookup p.1 c.metadata with
          | some m => F.matches m
          | none => true) := (List.take_sublist k _).subset hp
      have hpred : (match alLookup p.1 c.metadata with
          | some m => F.matches m
          | none => true) = true := (List.mem_filter.mp hp2).2
      rcases hcase with ⟨hnone, hmeta⟩ | ⟨m, hsome, hmeta⟩
      · exact Or.inl hmeta
      · right
        rw [hmeta]
        rw [hsome] at hpred
        simpa using hpred

def c9Cfg : VectorConfig :=
  ⟨1, .manhattan, 2, 4, 4, false, none, hnswCompression⟩

def c9Meta : Json := Json.obj [("category", Json.str "even")]

def c9Index : HnswIndex := ⟨c9Cfg, [(0, ⟨0, some [1], none, [[]], 0⟩)], some 0, 0, 1⟩

def c9Coll : VectorCollection := ⟨"test", c9Cfg, c9Index, [(0, c9Meta)]⟩

def c9Filter : MetadataFilter := ⟨[("category", FilterCondition.eq (Json.str "even"))]⟩

theorem c9_filtered_search_sound_witness :
    c9Coll.searchFiltered [0] 1 c9Filter =
      .ok [⟨⟨0, some [1], none, c9Meta⟩, 1, 0⟩] ∧
    (([(⟨⟨0, some [1], none, c9Meta⟩, 1, 0⟩ : VectorSearchResult)]).length ≤ 1 ∧
      ∀ r ∈ [(⟨⟨0, some [1], none, c9Meta⟩, 1, 0⟩ : VectorSearchResult)],
        r.document.metadata = Json.null ∨ c9Filter.matches r.document.metadata = true) :=
  ⟨by with_unfolding_all rfl,
    c9_filtered_search_sound c9Coll [0] 1 c9Filter _ (by with_unfolding_all rfl)⟩

end KeraDB
